import Mathlib

/-!
Verification of the pysrpm conversion engine: PEP 440 versions encoded into
RPM-comparable strings, specifier sets translated to RPM clauses, PEP 508
markers simplified to RPM rich-dependency conditions, and the surrounding
requirement/spec assembly code of `pysrpm/rpm.py`.

The conversion module itself (`pysrpm/convert.py`) is not part of the sources
available here, only its callers and tests are; its functions are modelled
from the specification, as marked in their doc comments.  RPM's own label
comparison (`rpm.labelCompare` / `rpmvercmp`), the external oracle the
encoder is specified against, is embedded faithfully from the librpm
algorithm.
-/

namespace Pysrpm

/-! ### Decimal digit strings -/

/-- The character for a decimal digit `d < 10`. -/
def digitChar (d : Nat) : Char := Char.ofNat (48 + d)

/-- Numeric value of a digit character. -/
def charVal (c : Char) : Nat := c.toNat - 48

/-- Big-endian value of a digit string, as librpm reads a run of digits. -/
def digitsVal (l : List Char) : Nat := l.foldl (fun a c => 10 * a + charVal c) 0

/-- Canonical decimal rendering, with enough fuel to consume every digit. -/
def natCharsAux : Nat → Nat → List Char
  | 0, n => [digitChar n]
  | fuel + 1, n =>
    if n < 10 then [digitChar n]
    else natCharsAux fuel (n / 10) ++ [digitChar (n % 10)]

/-- Canonical decimal rendering of a natural number, most significant first. -/
def natChars (n : Nat) : List Char := natCharsAux n n

theorem natCharsAux_fuel {f : Nat} : ∀ {n : Nat}, n ≤ f →
    natCharsAux f n = if n < 10 then [digitChar n]
      else natCharsAux (f - 1) (n / 10) ++ [digitChar (n % 10)] := by
  induction f with
  | zero =>
    intro n h
    have : n = 0 := by omega
    subst this
    rfl
  | succ f ih =>
    intro n h
    rfl

theorem charVal_digitChar {d : Nat} (h : d < 10) : charVal (digitChar d) = d := by
  interval_cases d <;> rfl

theorem isDigit_digitChar {d : Nat} (h : d < 10) : (digitChar d).isDigit = true := by
  interval_cases d <;> rfl

theorem digitsVal_shift (x : Nat) (l : List Char) :
    l.foldl (fun a c => 10 * a + charVal c) x = x * 10 ^ l.length + digitsVal l := by
  induction l generalizing x with
  | nil => simp [digitsVal]
  | cons c t ih =>
    simp only [List.foldl_cons, List.length_cons, digitsVal]
    rw [ih (10 * x + charVal c), ih (10 * 0 + charVal c)]
    ring

theorem digitsVal_cons (c : Char) (t : List Char) :
    digitsVal (c :: t) = charVal c * 10 ^ t.length + digitsVal t := by
  simpa [digitsVal] using digitsVal_shift (charVal c) t

theorem digitsVal_append_single (l : List Char) (c : Char) :
    digitsVal (l ++ [c]) = 10 * digitsVal l + charVal c := by
  simp only [digitsVal, List.foldl_append, List.foldl_cons, List.foldl_nil]

theorem natCharsAux_ne_nil (f n : Nat) : natCharsAux f n ≠ [] := by
  cases f with
  | zero => simp [natCharsAux]
  | succ f =>
    rw [natCharsAux]
    split <;> simp

theorem natChars_ne_nil (n : Nat) : natChars n ≠ [] := natCharsAux_ne_nil n n

theorem digitsVal_natCharsAux {f : Nat} : ∀ {n : Nat}, n ≤ f →
    digitsVal (natCharsAux f n) = n := by
  induction f with
  | zero =>
    intro n h
    have h0 : n = 0 := by omega
    subst h0
    rw [natCharsAux, digitsVal_cons, charVal_digitChar (by omega)]
    rfl
  | succ f ih =>
    intro n h
    rw [natCharsAux]
    split
    · next h10 =>
      rw [digitsVal_cons, charVal_digitChar h10]
      simp [digitsVal]
    · next h10 =>
      rw [digitsVal_append_single, ih (by omega), charVal_digitChar (Nat.mod_lt n (by omega))]
      omega

theorem digitsVal_natChars (n : Nat) : digitsVal (natChars n) = n :=
  digitsVal_natCharsAux le_rfl

theorem natCharsAux_digits {f : Nat} : ∀ {n : Nat}, n ≤ f →
    ∀ c ∈ natCharsAux f n, c.isDigit = true := by
  induction f with
  | zero =>
    intro n h
    have h0 : n = 0 := by omega
    subst h0
    rw [natCharsAux]
    simpa using isDigit_digitChar (by omega)
  | succ f ih =>
    intro n h
    rw [natCharsAux]
    split
    · next h10 => simpa using isDigit_digitChar h10
    · next h10 =>
      intro c hc
      rcases List.mem_append.1 hc with hc | hc
      · exact ih (by omega) c hc
      · simp only [List.mem_singleton] at hc
        exact hc ▸ isDigit_digitChar (Nat.mod_lt n (by omega))

theorem natChars_digits {n : Nat} : ∀ c ∈ natChars n, c.isDigit = true :=
  natCharsAux_digits le_rfl

theorem natCharsAux_head_ne_zero {f : Nat} : ∀ {n : Nat}, n ≤ f → n ≠ 0 →
    ∀ c ∈ (natCharsAux f n).head? , c ≠ '0' := by
  induction f with
  | zero =>
    intro n h h0
    omega
  | succ f ih =>
    intro n h h0
    rw [natCharsAux]
    split
    · next h10 =>
      intro c hc hc0
      simp only [List.head?_cons, Option.mem_def, Option.some.injEq] at hc
      subst hc
      interval_cases n <;> simp_all [digitChar]
    · next h10 =>
      intro c hc
      have hne := natCharsAux_ne_nil f (n / 10)
      rw [List.head?_append_of_ne_nil _ hne] at hc
      exact ih (by omega) (by omega) c hc

theorem natChars_head_ne_zero {n : Nat} (hn : n ≠ 0) :
    ∀ c ∈ (natChars n).head? , c ≠ '0' :=
  natCharsAux_head_ne_zero le_rfl hn

/-! ### Character classes and string comparison, as in librpm -/

/-- librpm's `risalnum`: ASCII letters and digits. -/
def isAlnum (c : Char) : Bool := c.isAlpha || c.isDigit

/-- A separator for `rpmvercmp`: anything that is not alphanumeric, `~` or `^`. -/
def isSep (c : Char) : Bool := !isAlnum c && c ≠ '~' && c ≠ '^'

/-- C `strcmp` on ASCII strings: lexicographic on byte values. -/
def charsCmp : List Char → List Char → Ordering
  | [], [] => .eq
  | [], _ :: _ => .lt
  | _ :: _, [] => .gt
  | a :: s, b :: t => (compare a.toNat b.toNat).then (charsCmp s t)

/-- librpm's comparison of two runs of digits: strip leading zeroes, then the
longer run is newer, and equal-length runs fall back to `strcmp`. -/
def rpmNumCmp (a b : List Char) : Ordering :=
  let a := a.dropWhile (· = '0')
  let b := b.dropWhile (· = '0')
  (compare a.length b.length).then (charsCmp a b)

theorem isDigit_toNat {c : Char} (h : c.isDigit = true) : 48 ≤ c.toNat ∧ c.toNat ≤ 57 := by
  simp [Char.isDigit] at h
  exact ⟨h.1, h.2⟩

theorem toNat_ne_of_ne_zero_char {c : Char} (h : c ≠ '0') : c.toNat ≠ 48 := by
  intro hn
  exact h (Char.ext (UInt32.ext hn))

theorem digitsVal_lt (l : List Char) (hl : ∀ c ∈ l, c.isDigit = true) :
    digitsVal l < 10 ^ l.length := by
  induction l with
  | nil => simp [digitsVal]
  | cons c t ih =>
    rw [digitsVal_cons, List.length_cons, pow_succ]
    have hc : charVal c ≤ 9 := by
      have := isDigit_toNat (hl c (List.mem_cons_self c t))
      simp only [charVal]
      omega
    have ht := ih fun c hc => hl c (List.mem_cons_of_mem _ hc)
    calc charVal c * 10 ^ t.length + digitsVal t
        < charVal c * 10 ^ t.length + 10 ^ t.length := by omega
      _ = (charVal c + 1) * 10 ^ t.length := by ring
      _ ≤ 10 ^ t.length * 10 := by
          rw [mul_comm (10 ^ t.length) 10]
          exact Nat.mul_le_mul_right _ (by omega)

theorem digitsVal_ge_of_head_ne_zero {c : Char} {t : List Char}
    (hc : c.isDigit = true) (h0 : c ≠ '0') : 10 ^ t.length ≤ digitsVal (c :: t) := by
  rw [digitsVal_cons]
  have hb := isDigit_toNat hc
  have hne := toNat_ne_of_ne_zero_char h0
  have h1 : 1 ≤ charVal c := by simp only [charVal]; omega
  calc 10 ^ t.length = 1 * 10 ^ t.length := (one_mul _).symm
    _ ≤ charVal c * 10 ^ t.length := Nat.mul_le_mul_right _ h1
    _ ≤ _ := Nat.le_add_right _ _

theorem compare_toNat_eq_compare_charVal {a b : Char}
    (ha : a.isDigit = true) (hb : b.isDigit = true) :
    compare a.toNat b.toNat = compare (charVal a) (charVal b) := by
  have h1 := isDigit_toNat ha
  have h2 := isDigit_toNat hb
  rcases lt_trichotomy a.toNat b.toNat with h | h | h
  · rw [compare_lt_iff_lt.2 h, compare_lt_iff_lt.2 (by simp only [charVal]; omega)]
  · rw [compare_eq_iff_eq.2 h, compare_eq_iff_eq.2 (by simp only [charVal]; omega)]
  · rw [compare_gt_iff_gt.2 h, compare_gt_iff_gt.2 (by simp only [charVal]; omega)]

/-- On equal-length digit strings, value comparison is decided by the leading
digit first: it is the lexicographic product of head and tail comparison. -/
theorem compare_digitsVal_cons {c d : Char} {s t : List Char}
    (hc : c.isDigit = true) (hd : d.isDigit = true)
    (hs : ∀ x ∈ s, x.isDigit = true) (ht : ∀ x ∈ t, x.isDigit = true)
    (hlen : s.length = t.length) :
    compare (digitsVal (c :: s)) (digitsVal (d :: t)) =
      (compare (charVal c) (charVal d)).then (compare (digitsVal s) (digitsVal t)) := by
  have hvs := digitsVal_lt s hs
  have hvt := digitsVal_lt t ht
  rcases lt_trichotomy (charVal c) (charVal d) with h | h | h
  · have : digitsVal (c :: s) < digitsVal (d :: t) := by
      rw [digitsVal_cons, digitsVal_cons, hlen]
      calc charVal c * 10 ^ t.length + digitsVal s
          < charVal c * 10 ^ t.length + 10 ^ t.length := by rw [← hlen]; omega
        _ = (charVal c + 1) * 10 ^ t.length := by ring
        _ ≤ charVal d * 10 ^ t.length := Nat.mul_le_mul_right _ (by omega)
        _ ≤ _ := Nat.le_add_right _ _
    rw [compare_lt_iff_lt.2 this, compare_lt_iff_lt.2 h]
    rfl
  · rw [compare_eq_iff_eq.2 h]
    rw [digitsVal_cons, digitsVal_cons, h, hlen]
    show _ = compare (digitsVal s) (digitsVal t)
    rcases lt_trichotomy (digitsVal s) (digitsVal t) with h2 | h2 | h2
    · rw [compare_lt_iff_lt.2 h2, compare_lt_iff_lt.2 (by omega)]
    · rw [compare_eq_iff_eq.2 h2, compare_eq_iff_eq.2 (by omega)]
    · rw [compare_gt_iff_gt.2 h2, compare_gt_iff_gt.2 (by omega)]
  · have : digitsVal (d :: t) < digitsVal (c :: s) := by
      rw [digitsVal_cons, digitsVal_cons, hlen]
      calc charVal d * 10 ^ t.length + digitsVal t
          < charVal d * 10 ^ t.length + 10 ^ t.length := by omega
        _ = (charVal d + 1) * 10 ^ t.length := by ring
        _ ≤ charVal c * 10 ^ t.length := Nat.mul_le_mul_right _ (by omega)
        _ ≤ _ := Nat.le_add_right _ _
    rw [compare_gt_iff_gt.2 this, compare_gt_iff_gt.2 h]
    rfl

/-- Equal-length digit strings compare lexicographically exactly as their values. -/
theorem charsCmp_eq_compare_digitsVal {a b : List Char}
    (ha : ∀ c ∈ a, c.isDigit = true) (hb : ∀ c ∈ b, c.isDigit = true)
    (hlen : a.length = b.length) : charsCmp a b = compare (digitsVal a) (digitsVal b) := by
  induction a generalizing b with
  | nil =>
    cases b with
    | nil => simp [charsCmp, digitsVal, Nat.compare_eq_eq.mpr rfl]
    | cons c t => simp at hlen
  | cons c s ih =>
    cases b with
    | nil => simp at hlen
    | cons d t =>
      simp only [List.length_cons, Nat.add_right_cancel_iff] at hlen
      have hc := ha c (List.mem_cons_self _ _)
      have hd := hb d (List.mem_cons_self _ _)
      have hs : ∀ x ∈ s, x.isDigit = true := fun x hx => ha x (List.mem_cons_of_mem _ hx)
      have ht : ∀ x ∈ t, x.isDigit = true := fun x hx => hb x (List.mem_cons_of_mem _ hx)
      rw [compare_digitsVal_cons hc hd hs ht hlen]
      show (compare c.toNat d.toNat).then (charsCmp s t) = _
      rw [compare_toNat_eq_compare_charVal hc hd, ih hs ht hlen]

theorem digitsVal_dropWhile_zero (l : List Char) :
    digitsVal (l.dropWhile (· = '0')) = digitsVal l := by
  induction l with
  | nil => rfl
  | cons c t ih =>
    by_cases h : c = '0'
    · subst h
      rw [List.dropWhile_cons_of_pos (by simp), ih, digitsVal_cons]
      simp [charVal]
    · rw [List.dropWhile_cons_of_neg (by simp [h])]

theorem dropWhile_head_not {α : Type} {p : α → Bool} :
    ∀ {l : List α} {c : α} {t : List α}, l.dropWhile p = c :: t → p c = false := by
  intro l
  induction l with
  | nil => intro c t h; simp [List.dropWhile] at h
  | cons x s ih =>
    intro c t h
    rw [List.dropWhile_cons] at h
    split at h
    · exact ih h
    · next hpx =>
      cases h
      simpa using hpx

/-- A digit string with a nonzero leading digit is at least `10 ^ (length - 1)`,
so among such strings a strictly longer one has the strictly larger value. -/
theorem digitsVal_lt_of_length_lt {a b : List Char}
    (ha : ∀ c ∈ a, c.isDigit = true) (hb : ∀ c ∈ b, c.isDigit = true)
    (hbh : ∀ c t, b = c :: t → c ≠ '0') (hlen : a.length < b.length) :
    digitsVal a < digitsVal b := by
  cases b with
  | nil => simp at hlen
  | cons c t =>
    have h1 : 10 ^ t.length ≤ digitsVal (c :: t) :=
      digitsVal_ge_of_head_ne_zero (hb c (List.mem_cons_self _ _)) (hbh c t rfl)
    have h2 : digitsVal a < 10 ^ a.length := digitsVal_lt a ha
    have h3 : (10 : Nat) ^ a.length ≤ 10 ^ t.length :=
      Nat.pow_le_pow_right (by omega) (by simpa using Nat.lt_succ_iff.1 hlen)
    omega

/-- librpm's digit-run comparison computes exactly the numeric comparison. -/
theorem rpmNumCmp_eq_compare {a b : List Char}
    (ha : ∀ c ∈ a, c.isDigit = true) (hb : ∀ c ∈ b, c.isDigit = true) :
    rpmNumCmp a b = compare (digitsVal a) (digitsVal b) := by
  have hsub : ∀ l : List Char, (∀ c ∈ l, c.isDigit = true) →
      ∀ c ∈ l.dropWhile (· = '0'), c.isDigit = true := by
    intro l hl c hc
    exact hl c ((List.dropWhile_sublist (· = '0')).mem hc)
  have ha' := hsub a ha
  have hb' := hsub b hb
  rw [rpmNumCmp, ← digitsVal_dropWhile_zero a, ← digitsVal_dropWhile_zero b]
  have hah : ∀ c t, a.dropWhile (· = '0') = c :: t → c ≠ '0' := by
    intro c t h
    simpa using dropWhile_head_not h
  have hbh : ∀ c t, b.dropWhile (· = '0') = c :: t → c ≠ '0' := by
    intro c t h
    simpa using dropWhile_head_not h
  set a' := a.dropWhile (· = '0')
  set b' := b.dropWhile (· = '0')
  rcases lt_trichotomy a'.length b'.length with h | h | h
  · have hv := digitsVal_lt_of_length_lt ha' hb' hbh h
    rw [compare_lt_iff_lt.2 h, compare_lt_iff_lt.2 hv]
    rfl
  · rw [compare_eq_iff_eq.2 h]
    show charsCmp a' b' = _
    exact charsCmp_eq_compare_digitsVal ha' hb' h
  · have hv := digitsVal_lt_of_length_lt hb' ha' hah h
    rw [compare_gt_iff_gt.2 h, compare_gt_iff_gt.2 hv]
    rfl

/-! ### rpmvercmp, embedded from librpm -/

/-- C `strncmp` over at most `n` characters, reading past the end of a list as
the NUL terminator, as librpm does when an alphabetic run is shorter than its
counterpart. -/
def headByte : List Char → Nat
  | [] => 0
  | c :: _ => c.toNat

def strncmpList : Nat → List Char → List Char → Ordering
  | 0, _, _ => .eq
  | n + 1, a, b =>
    match compare (headByte a) (headByte b) with
    | .eq => if headByte a = 0 then .eq else strncmpList n a.tail b.tail
    | o => o

theorem length_dropWhile_le {α : Type} (p : α → Bool) (l : List α) :
    (l.dropWhile p).length ≤ l.length :=
  (List.dropWhile_sublist p).length_le

theorem length_dropWhile_lt_of_head {α : Type} (p : α → Bool) (c : α) (t : List α)
    (h : p c = true) : ((c :: t).dropWhile p).length < (c :: t).length := by
  rw [List.dropWhile_cons_of_pos h]
  exact Nat.lt_succ_of_le (length_dropWhile_le p t)

/-- `rpmvercmp` from librpm: skip separators, give `~` pre-release priority,
let `^` sort above end-of-string but below everything else, then compare the
next run of digits numerically or of letters as strings. -/
def rvc (a b : List Char) : Ordering :=
  match ha' : a.dropWhile isSep, hb' : b.dropWhile isSep with
  | '~' :: ta, '~' :: tb => rvc ta tb
  | '~' :: _, _ => .lt
  | _, '~' :: _ => .gt
  | '^' :: ta, '^' :: tb => rvc ta tb
  | '^' :: _, [] => .gt
  | [], '^' :: _ => .lt
  | '^' :: _, _ => .lt
  | _, '^' :: _ => .gt
  | [], [] => .eq
  | [], _ => .lt
  | _, [] => .gt
  | ca :: ta, cb :: tb =>
    if hca : ca.isDigit then
      if cb.isDigit then
        match rpmNumCmp ((ca :: ta).takeWhile Char.isDigit) ((cb :: tb).takeWhile Char.isDigit) with
        | .eq => rvc ((ca :: ta).dropWhile Char.isDigit) ((cb :: tb).dropWhile Char.isDigit)
        | o => o
      else .gt
    else if hca' : ca.isAlpha then
      if cb.isAlpha then
        match strncmpList
            (max ((ca :: ta).takeWhile Char.isAlpha).length ((cb :: tb).takeWhile Char.isAlpha).length)
            (ca :: ta) (cb :: tb) with
        | .eq => rvc ((ca :: ta).dropWhile Char.isAlpha) ((cb :: tb).dropWhile Char.isAlpha)
        | o => o
      else .lt
    else .lt
termination_by a.length + b.length
decreasing_by
  · have h1 : (a.dropWhile isSep).length ≤ a.length := length_dropWhile_le isSep a
    have h2 : (b.dropWhile isSep).length ≤ b.length := length_dropWhile_le isSep b
    rw [ha'] at h1
    rw [hb'] at h2
    simp only [List.length_cons] at h1 h2
    omega
  · have h1 : (a.dropWhile isSep).length ≤ a.length := length_dropWhile_le isSep a
    have h2 : (b.dropWhile isSep).length ≤ b.length := length_dropWhile_le isSep b
    rw [ha'] at h1
    rw [hb'] at h2
    simp only [List.length_cons] at h1 h2
    omega
  · have h1 : (a.dropWhile isSep).length ≤ a.length := length_dropWhile_le isSep a
    have h2 : (b.dropWhile isSep).length ≤ b.length := length_dropWhile_le isSep b
    rw [ha'] at h1
    rw [hb'] at h2
    have h3 : ((ca :: ta).dropWhile Char.isDigit).length < (ca :: ta).length :=
      length_dropWhile_lt_of_head _ _ _ hca
    have h4 : ((cb :: tb).dropWhile Char.isDigit).length ≤ (cb :: tb).length :=
      length_dropWhile_le _ _
    simp only [List.length_cons] at *
    omega
  · have h1 : (a.dropWhile isSep).length ≤ a.length := length_dropWhile_le isSep a
    have h2 : (b.dropWhile isSep).length ≤ b.length := length_dropWhile_le isSep b
    rw [ha'] at h1
    rw [hb'] at h2
    have h3 : ((ca :: ta).dropWhile Char.isAlpha).length < (ca :: ta).length :=
      length_dropWhile_lt_of_head _ _ _ hca'
    have h4 : ((cb :: tb).dropWhile Char.isAlpha).length ≤ (cb :: tb).length :=
      length_dropWhile_le _ _
    simp only [List.length_cons] at *
    omega

/-- The comparison units `rpmvercmp` actually works on. -/
inductive Token : Type
  | tilde : Token
  | caret : Token
  | num : Nat → Token
  | alpha : List Char → Token
deriving DecidableEq, Repr

/-- Tokenize a string the way `rpmvercmp` consumes it: separators dropped,
`~`/`^` kept, runs of digits read as numbers (librpm compares them by value),
runs of letters kept as words.  The final defensive branch is unreachable:
after dropping separators a head that is neither `~`, `^` nor a digit is a
letter. -/
def toks (a : List Char) : List Token :=
  match ha' : a.dropWhile isSep with
  | [] => []
  | '~' :: t => .tilde :: toks t
  | '^' :: t => .caret :: toks t
  | c :: t =>
    if hcd : c.isDigit then
      .num (digitsVal ((c :: t).takeWhile Char.isDigit)) :: toks ((c :: t).dropWhile Char.isDigit)
    else if hc : c.isAlpha then
      .alpha ((c :: t).takeWhile Char.isAlpha) :: toks ((c :: t).dropWhile Char.isAlpha)
    else .alpha [c] :: toks t
termination_by a.length
decreasing_by
  all_goals have h1 : (a.dropWhile isSep).length ≤ a.length := length_dropWhile_le isSep a
  all_goals rw [ha'] at h1
  · simp only [List.length_cons] at h1
    omega
  · simp only [List.length_cons] at h1
    omega
  · have h3 : ((c :: t).dropWhile Char.isDigit).length < (c :: t).length :=
      length_dropWhile_lt_of_head _ _ _ hcd
    simp only [List.length_cons] at *
    omega
  · have h3 : ((c :: t).dropWhile Char.isAlpha).length < (c :: t).length :=
      length_dropWhile_lt_of_head _ _ _ hc
    simp only [List.length_cons] at *
    omega
  · simp only [List.length_cons] at h1
    omega

/-- Token-level comparison mirroring `rpmvercmp`'s decision rules. -/
def tokCmp : List Token → List Token → Ordering
  | [], [] => .eq
  | .tilde :: a, .tilde :: b => tokCmp a b
  | .tilde :: _, _ => .lt
  | _, .tilde :: _ => .gt
  | .caret :: a, .caret :: b => tokCmp a b
  | .caret :: _, [] => .gt
  | [], .caret :: _ => .lt
  | .caret :: _, _ => .lt
  | _, .caret :: _ => .gt
  | [], _ :: _ => .lt
  | _ :: _, [] => .gt
  | .num m :: a, .num n :: b => (compare m n).then (tokCmp a b)
  | .num _ :: _, .alpha _ :: _ => .gt
  | .alpha _ :: _, .num _ :: _ => .lt
  | .alpha s :: a, .alpha t :: b => (charsCmp s t).then (tokCmp a b)

/-! ### Unfolding equations for the tokenizer -/

theorem toks_of_sep_nil {a : List Char} (h : a.dropWhile isSep = []) : toks a = [] := by
  rw [toks.eq_def]
  split
  · rfl
  all_goals simp_all

theorem toks_of_tilde {a t : List Char} (h : a.dropWhile isSep = '~' :: t) :
    toks a = .tilde :: toks t := by
  rw [toks.eq_def]
  split
  · simp_all
  · next t' heq =>
    rw [h] at heq
    cases heq
    rfl
  · next t' heq =>
    rw [h] at heq
    cases heq
  · next c t' hne1 hne2 heq =>
    rw [h] at heq
    injection heq with e1 _
    exact absurd e1.symm hne1

theorem toks_of_digit {a : List Char} {c : Char} {t : List Char}
    (h : a.dropWhile isSep = c :: t) (hc : c.isDigit = true) :
    toks a = .num (digitsVal ((c :: t).takeWhile Char.isDigit)) ::
      toks ((c :: t).dropWhile Char.isDigit) := by
  rw [toks.eq_def]
  split
  · simp_all
  · next t' heq =>
    rw [h] at heq
    injection heq with e1 _
    subst e1
    simp at hc
  · next t' heq =>
    rw [h] at heq
    injection heq with e1 _
    subst e1
    simp at hc
  · next c' t' _ _ heq =>
    rw [h] at heq
    injection heq with e1 e2
    subst e1
    subst e2
    rw [dif_pos hc]

theorem toks_of_alpha {a : List Char} {c : Char} {t : List Char}
    (h : a.dropWhile isSep = c :: t) (hc : c.isDigit = false) (hc2 : c.isAlpha = true) :
    toks a = .alpha ((c :: t).takeWhile Char.isAlpha) ::
      toks ((c :: t).dropWhile Char.isAlpha) := by
  rw [toks.eq_def]
  split
  · simp_all
  · next t' heq =>
    rw [h] at heq
    injection heq with e1 _
    subst e1
    simp at hc2
  · next t' heq =>
    rw [h] at heq
    injection heq with e1 _
    subst e1
    simp at hc2
  · next c' t' _ _ heq =>
    rw [h] at heq
    injection heq with e1 e2
    subst e1
    subst e2
    rw [dif_neg (by simp [hc]), dif_pos hc2]

theorem toks_of_caret {a t : List Char} (h : a.dropWhile isSep = '^' :: t) :
    toks a = .caret :: toks t := by
  rw [toks.eq_def]
  split
  · simp_all
  · next t' heq =>
    rw [h] at heq
    cases heq
  · next t' heq =>
    rw [h] at heq
    cases heq
    rfl
  · next c t' hne1 hne2 heq =>
    rw [h] at heq
    injection heq with e1 _
    exact absurd e1.symm hne2

/-- After dropping separators, a head character is alphanumeric, `~` or `^`. -/
theorem head_of_dropWhile_isSep {a : List Char} {c : Char} {t : List Char}
    (h : a.dropWhile isSep = c :: t) :
    c.isDigit = true ∨ c.isAlpha = true ∨ c = '~' ∨ c = '^' := by
  have hf := dropWhile_head_not h
  by_contra hno
  push_neg at hno
  obtain ⟨h1, h2, h3, h4⟩ := hno
  rw [isSep] at hf
  simp only [Bool.not_eq_true] at h1 h2
  simp [isAlnum, h1, h2, h3, h4] at hf

/-! ### Alphabetic runs occurring in encoded versions -/

/-- The alphabetic words the version encoder can emit.  Any two distinct ones
differ in their first character, which is what lets librpm's `strncmp` over
the longer run length coincide with plain run comparison. -/
def goodWords : List (List Char) := [['a'], ['b'], ['r', 'c'], ['p', 'o', 's', 't'], ['d', 'e', 'v']]

/-- All alphabetic runs of the string are words the encoder can emit. -/
def GoodRuns (a : List Char) : Prop := ∀ w, Token.alpha w ∈ toks a → w ∈ goodWords

theorem strncmpList_self_prefix {r : List Char} (hr : ∀ c ∈ r, c.toNat ≠ 0) :
    ∀ x y, strncmpList r.length (r ++ x) (r ++ y) = .eq := by
  induction r with
  | nil => intro x y; rfl
  | cons c s ih =>
    intro x y
    have hc := hr c (List.mem_cons_self _ _)
    rw [List.length_cons, List.cons_append, List.cons_append, strncmpList]
    have : compare (headByte (c :: (s ++ x))) (headByte (c :: (s ++ y))) = .eq := by
      simp [headByte, Nat.compare_eq_eq]
    rw [this]
    simp only [headByte, List.tail_cons]
    rw [if_neg hc]
    exact ih (fun c hc => hr c (List.mem_cons_of_mem _ hc)) x y

/-- On encoder words, the `strncmp` comparison librpm performs on the strings
from the start of an alphabetic run agrees with comparing just the runs. -/
theorem strncmp_goodWords {r1 r2 : List Char} (h1 : r1 ∈ goodWords) (h2 : r2 ∈ goodWords) :
    ∀ x y, strncmpList (max r1.length r2.length) (r1 ++ x) (r2 ++ y) = charsCmp r1 r2 := by
  simp only [goodWords, List.mem_cons, List.mem_singleton, List.not_mem_nil, or_false] at h1 h2
  rcases h1 with h1 | h1 | h1 | h1 | h1 <;> rcases h2 with h2 | h2 | h2 | h2 | h2 <;>
    subst h1 <;> subst h2 <;> intro x y <;>
    first
      | exact strncmpList_self_prefix (by decide) x y
      | rfl

theorem isAlpha_toNat {c : Char} (h : c.isAlpha = true) :
    (65 ≤ c.toNat ∧ c.toNat ≤ 90) ∨ (97 ≤ c.toNat ∧ c.toNat ≤ 122) := by
  simp [Char.isAlpha, Char.isUpper, Char.isLower] at h
  rcases h with ⟨h1, h2⟩ | ⟨h1, h2⟩
  · exact .inl ⟨h1, h2⟩
  · exact .inr ⟨h1, h2⟩

theorem isDigit_false_of_isAlpha {c : Char} (h : c.isAlpha = true) : c.isDigit = false := by
  rcases hd : c.isDigit with _ | _
  · rfl
  · have h1 := isDigit_toNat hd
    rcases isAlpha_toNat h with ⟨h2, h3⟩ | ⟨h2, h3⟩ <;> omega

theorem goodRuns_of_cons {a rest : List Char} {tok : Token}
    (h : toks a = tok :: toks rest) (hg : GoodRuns a) : GoodRuns rest :=
  fun w hw => hg w (h ▸ List.mem_cons_of_mem _ hw)

theorem notMem_of_dropWhile_cons {a t : List Char} {c x : Char}
    (h : a.dropWhile isSep = c :: t) (hx : x ∉ a) : x ∉ c :: t :=
  fun hm => hx ((List.dropWhile_sublist isSep).subset (h ▸ hm))

/-- A string whose next unit is neither `~` nor `^` tokenizes to a number or
a word at its head. -/
theorem toks_cons_shape {b : List Char} {cb : Char} {tb : List Char}
    (hb : b.dropWhile isSep = cb :: tb) (hnt : cb ≠ '~') (hnc : cb ≠ '^') :
    (∃ v rest, toks b = .num v :: rest) ∨ (∃ w rest, toks b = .alpha w :: rest) := by
  rcases head_of_dropWhile_isSep hb with hd | hd | hd | hd
  · exact .inl ⟨_, _, toks_of_digit hb hd⟩
  · exact .inr ⟨_, _, toks_of_alpha hb (isDigit_false_of_isAlpha hd) hd⟩
  · exact absurd hd hnt
  · exact absurd hd hnc

/-- `rpmvercmp` computes the token-level comparison of its two arguments,
for caret-free strings whose alphabetic runs are words the encoder emits. -/
theorem rvc_eq_tokCmp_aux (n : Nat) : ∀ a b : List Char, a.length + b.length ≤ n →
    '^' ∉ a → '^' ∉ b → GoodRuns a → GoodRuns b →
    rvc a b = tokCmp (toks a) (toks b) := by
  induction n using Nat.strong_induction_on with
  | _ n ih =>
    intro a b hlen hxa hxb hga hgb
    have hla := length_dropWhile_le isSep a
    have hlb := length_dropWhile_le isSep b
    rw [rvc.eq_def]
    split
    -- both tilde
    · next ta tb ha' hb' =>
      rw [toks_of_tilde ha', toks_of_tilde hb']
      show rvc ta tb = tokCmp (toks ta) (toks tb)
      rw [ha'] at hla
      rw [hb'] at hlb
      simp only [List.length_cons] at hla hlb
      exact ih (ta.length + tb.length) (by omega) ta tb le_rfl
        (fun hm => (notMem_of_dropWhile_cons ha' hxa) (List.mem_cons_of_mem _ hm))
        (fun hm => (notMem_of_dropWhile_cons hb' hxb) (List.mem_cons_of_mem _ hm))
        (goodRuns_of_cons (toks_of_tilde ha') hga)
        (goodRuns_of_cons (toks_of_tilde hb') hgb)
    -- a tilde, b not tilde
    · next ta ha' hnb =>
      rw [toks_of_tilde ha']
      rcases hb : b.dropWhile isSep with _ | ⟨cb, tb⟩
      · rw [toks_of_sep_nil hb]
        rfl
      · have hnc : cb ≠ '^' := fun h => by
          subst h
          exact notMem_of_dropWhile_cons hb hxb (List.mem_cons_self _ _)
        have hnt : cb ≠ '~' := fun h => by
          subst h
          exact hnb _ hb
        rcases toks_cons_shape hb hnt hnc with ⟨v, rest, hr⟩ | ⟨w, rest, hr⟩ <;> rw [hr] <;> rfl
    -- b tilde, a not tilde
    · next tb hb' hna _ =>
      rw [toks_of_tilde hb']
      rcases hax : a.dropWhile isSep with _ | ⟨ca, ta⟩
      · rw [toks_of_sep_nil hax]
        rfl
      · have hnc : ca ≠ '^' := fun h => by
          subst h
          exact notMem_of_dropWhile_cons hax hxa (List.mem_cons_self _ _)
        have hnt : ca ≠ '~' := fun h => by
          subst h
          exact hna _ hax
        rcases toks_cons_shape hax hnt hnc with ⟨v, rest, hr⟩ | ⟨w, rest, hr⟩ <;> rw [hr] <;> rfl
    -- caret cases are ruled out by the caret-free hypotheses
    · next ta tb ha' hb' =>
      exact absurd (List.mem_cons_self '^' ta) (notMem_of_dropWhile_cons ha' hxa)
    · next ta ha' hb' =>
      exact absurd (List.mem_cons_self '^' ta) (notMem_of_dropWhile_cons ha' hxa)
    · next tb ha' hb' =>
      exact absurd (List.mem_cons_self '^' tb) (notMem_of_dropWhile_cons hb' hxb)
    · next ta ha' _ _ _ =>
      exact absurd (List.mem_cons_self '^' ta) (notMem_of_dropWhile_cons ha' hxa)
    · next tb hb' _ _ _ _ =>
      exact absurd (List.mem_cons_self '^' tb) (notMem_of_dropWhile_cons hb' hxb)
    -- both exhausted
    · next ha' hb' =>
      rw [toks_of_sep_nil ha', toks_of_sep_nil hb']
      rfl
    -- a exhausted, b not
    · next ha' hnb _ _ hne =>
      rw [toks_of_sep_nil ha']
      rcases hb : b.dropWhile isSep with _ | ⟨cb, tb⟩
      · exact absurd hb hne
      · have hnc : cb ≠ '^' := fun h => by
          subst h
          exact notMem_of_dropWhile_cons hb hxb (List.mem_cons_self _ _)
        have hnt : cb ≠ '~' := fun h => by
          subst h
          exact hnb _ hb
        rcases toks_cons_shape hb hnt hnc with ⟨v, rest, hr⟩ | ⟨w, rest, hr⟩ <;> rw [hr] <;> rfl
    -- b exhausted, a not
    · next hb' hna _ _ hne _ =>
      rw [toks_of_sep_nil hb']
      rcases hax : a.dropWhile isSep with _ | ⟨ca, ta⟩
      · exact absurd hax hne
      · have hnc : ca ≠ '^' := fun h => by
          subst h
          exact notMem_of_dropWhile_cons hax hxa (List.mem_cons_self _ _)
        have hnt : ca ≠ '~' := fun h => by
          subst h
          exact hna _ hax
        rcases toks_cons_shape hax hnt hnc with ⟨v, rest, hr⟩ | ⟨w, rest, hr⟩ <;> rw [hr] <;> rfl
    -- both runs
    · next ca ta cb tb hnab hna hnb hncc hnca hncb ha' hb' =>
      rw [ha'] at hla
      rw [hb'] at hlb
      simp only [List.length_cons] at hla hlb
      have hda := head_of_dropWhile_isSep ha'
      have hdb := head_of_dropWhile_isSep hb'
      have hca4 : ca ≠ '^' := fun h => by
        subst h
        exact notMem_of_dropWhile_cons ha' hxa (List.mem_cons_self _ _)
      have hcb4 : cb ≠ '^' := fun h => by
        subst h
        exact notMem_of_dropWhile_cons hb' hxb (List.mem_cons_self _ _)
      by_cases hcad : ca.isDigit
      · rw [dif_pos hcad]
        have htka := toks_of_digit ha' hcad
        by_cases hcbd : cb.isDigit
        · -- digit run against digit run
          rw [if_pos hcbd]
          have htkb := toks_of_digit hb' hcbd
          rw [htka, htkb]
          have hra : ∀ c ∈ (ca :: ta).takeWhile Char.isDigit, c.isDigit = true :=
            fun c hc => List.mem_takeWhile_imp hc
          have hrb : ∀ c ∈ (cb :: tb).takeWhile Char.isDigit, c.isDigit = true :=
            fun c hc => List.mem_takeWhile_imp hc
          rw [rpmNumCmp_eq_compare hra hrb]
          show _ = (compare (digitsVal ((ca :: ta).takeWhile Char.isDigit))
              (digitsVal ((cb :: tb).takeWhile Char.isDigit))).then _
          rcases hcmp : compare (digitsVal ((ca :: ta).takeWhile Char.isDigit))
              (digitsVal ((cb :: tb).takeWhile Char.isDigit)) with _ | _ | _
          · rfl
          · show rvc _ _ = _
            have h3 : ((ca :: ta).dropWhile Char.isDigit).length < (ca :: ta).length :=
              length_dropWhile_lt_of_head _ _ _ hcad
            have h4 : ((cb :: tb).dropWhile Char.isDigit).length ≤ (cb :: tb).length :=
              length_dropWhile_le _ _
            simp only [List.length_cons] at h3 h4
            refine (ih _ (by omega) _ _ le_rfl ?_ ?_
              (goodRuns_of_cons htka hga) (goodRuns_of_cons htkb hgb)).trans rfl
            · exact fun hm => notMem_of_dropWhile_cons ha' hxa
                ((List.dropWhile_sublist Char.isDigit).subset hm)
            · exact fun hm => notMem_of_dropWhile_cons hb' hxb
                ((List.dropWhile_sublist Char.isDigit).subset hm)
          · rfl
        · -- digit run against letter run: numbers are newer
          rw [if_neg hcbd]
          rcases hdb with hd | hd | hd | hd
          · exact absurd hd hcbd
          · rw [htka, toks_of_alpha hb' (by simpa using hcbd) hd]
            rfl
          · exact absurd hd (fun h => hnb h)
          · exact absurd hd hcb4
      · rcases hda with hd | hcaa | hd | hd
        · exact absurd hd hcad
        · -- letter run on the left
          rw [dif_neg hcad, dif_pos hcaa]
          have htka := toks_of_alpha ha' (by simpa using hcad) hcaa
          by_cases hcba : cb.isAlpha
          · -- letter run against letter run
            rw [if_pos hcba]
            have hcbd := isDigit_false_of_isAlpha hcba
            have htkb := toks_of_alpha hb' hcbd hcba
            rw [htka, htkb]
            have hw1 : (ca :: ta).takeWhile Char.isAlpha ∈ goodWords :=
              hga _ (htka ▸ List.mem_cons_self _ _)
            have hw2 : (cb :: tb).takeWhile Char.isAlpha ∈ goodWords :=
              hgb _ (htkb ▸ List.mem_cons_self _ _)
            have hsa := List.takeWhile_append_dropWhile Char.isAlpha (l := ca :: ta)
            have hsb := List.takeWhile_append_dropWhile Char.isAlpha (l := cb :: tb)
            have key := strncmp_goodWords hw1 hw2 ((ca :: ta).dropWhile Char.isAlpha)
              ((cb :: tb).dropWhile Char.isAlpha)
            rw [hsa] at key
            rw [hsb] at key
            rw [key]
            show _ = (charsCmp ((ca :: ta).takeWhile Char.isAlpha)
                ((cb :: tb).takeWhile Char.isAlpha)).then _
            rcases hcmp : charsCmp ((ca :: ta).takeWhile Char.isAlpha)
                ((cb :: tb).takeWhile Char.isAlpha) with _ | _ | _
            · rfl
            · show rvc _ _ = _
              have h3 : ((ca :: ta).dropWhile Char.isAlpha).length < (ca :: ta).length :=
                length_dropWhile_lt_of_head _ _ _ hcaa
              have h4 : ((cb :: tb).dropWhile Char.isAlpha).length ≤ (cb :: tb).length :=
                length_dropWhile_le _ _
              simp only [List.length_cons] at h3 h4
              refine (ih _ (by omega) _ _ le_rfl ?_ ?_
                (goodRuns_of_cons htka hga) (goodRuns_of_cons htkb hgb)).trans rfl
              · exact fun hm => notMem_of_dropWhile_cons ha' hxa
                  ((List.dropWhile_sublist Char.isAlpha).subset hm)
              · exact fun hm => notMem_of_dropWhile_cons hb' hxb
                  ((List.dropWhile_sublist Char.isAlpha).subset hm)
            · rfl
          · -- letter run against digit run: letters are older
            rw [if_neg hcba]
            rcases hdb with hd | hd | hd | hd
            · rw [htka, toks_of_digit hb' hd]
              rfl
            · exact absurd hd hcba
            · exact absurd hd (fun h => hnb h)
            · exact absurd hd hcb4
        · exact absurd hd (fun h => hna h)
        · exact absurd hd hca4

/-- Wrapper: `rpmvercmp` equals the tokenized comparison. -/
theorem rvc_eq_tokCmp {a b : List Char} (hxa : '^' ∉ a) (hxb : '^' ∉ b)
    (hga : GoodRuns a) (hgb : GoodRuns b) : rvc a b = tokCmp (toks a) (toks b) :=
  rvc_eq_tokCmp_aux (a.length + b.length) a b le_rfl hxa hxb hga hgb

/-! ### PEP 440 versions: the spec's data model -/

/-- Pre-release phase tags, ordered `a < b < rc`. -/
inductive PrePhase : Type
  | a : PrePhase
  | b : PrePhase
  | rc : PrePhase
deriving DecidableEq, Repr

/-- One segment of a local version: numeric or alphanumeric. -/
inductive LocalSeg : Type
  | num : Nat → LocalSeg
  | alpha : List Char → LocalSeg
deriving DecidableEq, Repr

/-- A parsed PEP 440 version, per the spec's data model: epoch, release
segments, optional pre-release (phase, number), optional post-release,
optional dev-release, optional local-version segments. -/
structure PyVersion : Type where
  epoch : Nat := 0
  release : List Nat
  pre : Option (PrePhase × Nat) := none
  post : Option Nat := none
  dev : Option Nat := none
  locals : List LocalSeg := []
deriving DecidableEq, Repr

/-! ### PEP 440 ordering, following the `packaging` comparison key -/

def phaseRank : PrePhase → Nat
  | .a => 0
  | .b => 1
  | .rc => 2

/-- Comparison of an exhausted release tuple (zero-padded) against the rest
of the other one. -/
def relZeros : List Nat → Ordering
  | [] => .eq
  | b :: t => (compare 0 b).then (relZeros t)

/-- Release tuples compare componentwise after zero-padding the shorter one,
as PEP 440 prescribes. -/
def relCmp : List Nat → List Nat → Ordering
  | [], t => relZeros t
  | a :: s, [] => (compare a 0).then (relCmp s [])
  | a :: s, b :: t => (compare a b).then (relCmp s t)

/-- The pre-release slot of the comparison key: a dev release with neither
pre nor post sorts below every pre-release, and a version without pre-release
otherwise sorts above every pre-release. -/
inductive PreKey : Type
  | devOnly : PreKey
  | pre : PrePhase → Nat → PreKey
  | final : PreKey
deriving DecidableEq, Repr

def preKey (v : PyVersion) : PreKey :=
  match v.pre with
  | some (p, n) => .pre p n
  | none => if v.post = none ∧ v.dev ≠ none then .devOnly else .final

def preKeyCmp : PreKey → PreKey → Ordering
  | .devOnly, .devOnly => .eq
  | .devOnly, _ => .lt
  | _, .devOnly => .gt
  | .pre p n, .pre q m => (compare (phaseRank p) (phaseRank q)).then (compare n m)
  | .pre _ _, .final => .lt
  | .final, .pre _ _ => .gt
  | .final, .final => .eq

/-- No post-release sorts below any post-release. -/
def postCmp : Option Nat → Option Nat → Ordering
  | none, none => .eq
  | none, some _ => .lt
  | some _, none => .gt
  | some n, some m => compare n m

/-- A dev-release sorts below no dev-release. -/
def devCmp : Option Nat → Option Nat → Ordering
  | none, none => .eq
  | none, some _ => .gt
  | some _, none => .lt
  | some n, some m => compare n m

/-- Local segments: numeric segments sort above alphanumeric ones, numeric
compare by value, alphanumeric lexicographically. -/
def localSegCmp : LocalSeg → LocalSeg → Ordering
  | .num n, .num m => compare n m
  | .num _, .alpha _ => .gt
  | .alpha _, .num _ => .lt
  | .alpha s, .alpha t => charsCmp s t

/-- Local version: absent sorts below present, then segmentwise with the
shorter tuple below on ties. -/
def localCmp : List LocalSeg → List LocalSeg → Ordering
  | [], [] => .eq
  | [], _ :: _ => .lt
  | _ :: _, [] => .gt
  | s :: a, t :: b => (localSegCmp s t).then (localCmp a b)

/-- PEP 440's total order on parsed versions, as implemented by
`packaging.version`: epoch, then release, then the pre/post/dev slots,
then the local version. -/
def pep440Cmp (v w : PyVersion) : Ordering :=
  (compare v.epoch w.epoch).then <| (relCmp v.release w.release).then <|
    (preKeyCmp (preKey v) (preKey w)).then <| (postCmp v.post w.post).then <|
      (devCmp v.dev w.dev).then (localCmp v.locals w.locals)

/-! ### The version encoder, modelled from the spec -/

def phaseChars : PrePhase → List Char
  | .a => ['a']
  | .b => ['b']
  | .rc => ['r', 'c']

def releaseChars : List Nat → List Char
  | [] => []
  | [n] => natChars n
  | n :: t => natChars n ++ '.' :: releaseChars t

def localSegChars : LocalSeg → List Char
  | .num n => natChars n
  | .alpha w => w

/-- Modelled from the spec: the version body produced by
`python_version_to_rpm_version` of the missing `pysrpm/convert.py` —
release segments joined with `.`, a pre-release as a `~`-segment, a
post-release as `.postN`, a dev-release as a `~~devN` segment sorting below
any pre-release tilde-segment, and the local version appended last with its
separators normalized to `.`.  The local version attaches with RPM's `^`
marker, the only separator that sorts above the bare version but below any
further segment, as the repository's sorting tests require
(`1.0 < 1.0+5 < 1.0.post456.dev34`). -/
def encodeBody (v : PyVersion) : List Char :=
  releaseChars v.release ++
  (match v.pre with
    | none => []
    | some (p, n) => '~' :: (phaseChars p ++ natChars n)) ++
  (match v.post with
    | none => []
    | some n => '.' :: 'p' :: 'o' :: 's' :: 't' :: natChars n) ++
  (match v.dev with
    | none => []
    | some n => '~' :: '~' :: 'd' :: 'e' :: 'v' :: natChars n) ++
  (match v.locals with
    | [] => []
    | s :: t => '^' :: (localSegChars s ++ t.flatMap (fun s => '.' :: localSegChars s)))

/-- Modelled from the spec: `python_version_to_rpm_version` — the RPM epoch
prefix `N:`, omitted when zero, followed by the encoded version body. -/
def python_version_to_rpm_version (v : PyVersion) : List Char :=
  (if v.epoch = 0 then [] else natChars v.epoch ++ [':']) ++ encodeBody v

/-! ### RPM label comparison, as exercised by the repository's tests -/

/-- `str.rpartition(':')` on the colon, as the tests split the encoded
string into epoch and version-release. -/
def splitEpoch (s : List Char) : List Char × List Char :=
  let after := (s.reverse.takeWhile (fun c => c != ':')).reverse
  if after.length = s.length then ([], s) else (s.take (s.length - after.length - 1), after)

/-- `str.partition('-')` on the dash, splitting version from release. -/
def splitDash (s : List Char) : List Char × List Char :=
  (s.takeWhile (fun c => c != '-'), ((s.dropWhile (fun c => c != '-')).tail))

/-- `rpm.labelCompare` on two encoded strings: missing epochs count as zero
and are compared numerically, then version and release fields go through
`rpmvercmp`. -/
def rpmLabelCmp (s1 s2 : List Char) : Ordering :=
  let e1 := splitEpoch s1
  let e2 := splitEpoch s2
  let vr1 := splitDash e1.2
  let vr2 := splitDash e2.2
  (compare (digitsVal e1.1) (digitsVal e2.1)).then <|
    (rvc vr1.1 vr2.1).then (rvc vr1.2 vr2.2)

/-! ### Stepping the tokenizer over encoder output -/

/-- A string that starts (if at all) with one of the follower characters an
encoded optional part can start with. -/
def TailStart (s : List Char) : Prop := ∀ c t, s = c :: t → (c = '~' ∨ c = '.' ∨ c = '^')

theorem tailStart_nil : TailStart [] := fun _ _ h => by cases h

theorem tailStart_not_digit {s : List Char} (h : TailStart s) :
    ∀ c t, s = c :: t → c.isDigit = false := by
  intro c t hs
  rcases h c t hs with h1 | h1 | h1 <;> subst h1 <;> rfl

theorem tailStart_not_alpha {s : List Char} (h : TailStart s) :
    ∀ c t, s = c :: t → c.isAlpha = false := by
  intro c t hs
  rcases h c t hs with h1 | h1 | h1 <;> subst h1 <;> rfl

theorem isSep_false_of_digit {c : Char} (h : c.isDigit = true) : isSep c = false := by
  simp [isSep, isAlnum, h]

theorem isSep_false_of_alpha {c : Char} (h : c.isAlpha = true) : isSep c = false := by
  simp [isSep, isAlnum, h]

/-- Separators at the head are skipped by the tokenizer. -/
theorem toks_sep_cons {c : Char} {s : List Char} (h : isSep c = true) :
    toks (c :: s) = toks s := by
  have hd : (c :: s).dropWhile isSep = s.dropWhile isSep := List.dropWhile_cons_of_pos h
  rcases hs : s.dropWhile isSep with _ | ⟨c', t⟩
  · rw [toks_of_sep_nil (hd.trans hs), toks_of_sep_nil hs]
  · rcases head_of_dropWhile_isSep hs with h1 | h1 | h1 | h1
    · rw [toks_of_digit (hd.trans hs) h1, toks_of_digit hs h1]
    · rw [toks_of_alpha (hd.trans hs) (isDigit_false_of_isAlpha h1) h1,
        toks_of_alpha hs (isDigit_false_of_isAlpha h1) h1]
    · subst h1
      rw [toks_of_tilde (hd.trans hs), toks_of_tilde hs]
    · subst h1
      rw [toks_of_caret (hd.trans hs), toks_of_caret hs]

theorem toks_tilde_cons (s : List Char) : toks ('~' :: s) = .tilde :: toks s :=
  toks_of_tilde (List.dropWhile_cons_of_neg (by decide))

theorem toks_caret_cons (s : List Char) : toks ('^' :: s) = .caret :: toks s :=
  toks_of_caret (List.dropWhile_cons_of_neg (by decide))

theorem toks_nil : toks ([] : List Char) = [] := toks_of_sep_nil rfl

/-- A canonical number followed by a non-digit tokenizes to its value. -/
theorem toks_num_run (n : Nat) {s : List Char}
    (hs : ∀ c t, s = c :: t → c.isDigit = false) :
    toks (natChars n ++ s) = .num n :: toks s := by
  obtain ⟨c0, rest, hn⟩ := List.exists_cons_of_ne_nil (natChars_ne_nil n)
  · have hc0 : c0.isDigit = true := natChars_digits c0 (hn ▸ List.mem_cons_self _ _)
    have hmem : ∀ c ∈ natChars n, c.isDigit = true := natChars_digits
    have hd : (natChars n ++ s).dropWhile isSep = c0 :: (rest ++ s) := by
      rw [hn, List.cons_append]
      exact List.dropWhile_cons_of_neg (by simp [isSep_false_of_digit hc0])
    have htk : (c0 :: (rest ++ s)).takeWhile Char.isDigit = natChars n := by
      rw [← List.cons_append, ← hn, List.takeWhile_append_of_pos hmem]
      rcases s with _ | ⟨c, t⟩
      · simp
      · rw [List.takeWhile_cons_of_neg (by simp [hs c t rfl]), List.append_nil]
    have hdr : (c0 :: (rest ++ s)).dropWhile Char.isDigit = s := by
      rw [← List.cons_append, ← hn, List.dropWhile_append_of_pos hmem]
      rcases s with _ | ⟨c, t⟩
      · rfl
      · exact List.dropWhile_cons_of_neg (by simp [hs c t rfl])
    rw [toks_of_digit hd hc0, htk, hdr, digitsVal_natChars]

/-- A word of letters followed by a non-letter tokenizes to itself. -/
theorem toks_word_run {w : List Char} (hw : w ≠ []) (hwa : ∀ c ∈ w, c.isAlpha = true)
    {s : List Char} (hs : ∀ c t, s = c :: t → c.isAlpha = false) :
    toks (w ++ s) = .alpha w :: toks s := by
  rcases hn : w with _ | ⟨c0, rest⟩
  · exact absurd hn hw
  · subst hn
    have hc0 : c0.isAlpha = true := hwa c0 (List.mem_cons_self _ _)
    have hd : ((c0 :: rest) ++ s).dropWhile isSep = c0 :: (rest ++ s) := by
      rw [List.cons_append]
      exact List.dropWhile_cons_of_neg (by simp [isSep_false_of_alpha hc0])
    have htk : (c0 :: (rest ++ s)).takeWhile Char.isAlpha = c0 :: rest := by
      rw [← List.cons_append, List.takeWhile_append_of_pos hwa]
      rcases s with _ | ⟨c, t⟩
      · simp
      · rw [List.takeWhile_cons_of_neg (by simp [hs c t rfl]), List.append_nil]
    have hdr : (c0 :: (rest ++ s)).dropWhile Char.isAlpha = s := by
      rw [← List.cons_append, List.dropWhile_append_of_pos hwa]
      rcases s with _ | ⟨c, t⟩
      · rfl
      · exact List.dropWhile_cons_of_neg (by simp [hs c t rfl])
    rw [List.cons_append] at hd ⊢
    rw [toks_of_alpha hd (isDigit_false_of_isAlpha hc0) hc0, htk, hdr]

/-! ### Token lists of encoded versions -/

def preChars : Option (PrePhase × Nat) → List Char
  | none => []
  | some (p, n) => '~' :: (phaseChars p ++ natChars n)

def postChars : Option Nat → List Char
  | none => []
  | some n => '.' :: 'p' :: 'o' :: 's' :: 't' :: natChars n

def devChars : Option Nat → List Char
  | none => []
  | some n => '~' :: '~' :: 'd' :: 'e' :: 'v' :: natChars n

def preToks : Option (PrePhase × Nat) → List Token
  | none => []
  | some (p, n) => [.tilde, .alpha (phaseChars p), .num n]

def postToks : Option Nat → List Token
  | none => []
  | some n => [.alpha ['p', 'o', 's', 't'], .num n]

def devToks : Option Nat → List Token
  | none => []
  | some n => [.tilde, .tilde, .alpha ['d', 'e', 'v'], .num n]

theorem phaseChars_ne_nil (p : PrePhase) : phaseChars p ≠ [] := by
  cases p <;> simp [phaseChars]

theorem phaseChars_alpha (p : PrePhase) : ∀ c ∈ phaseChars p, c.isAlpha = true := by
  cases p <;> decide

theorem natChars_not_alpha_start (n : Nat) :
    ∀ c t, natChars n = c :: t → c.isAlpha = false := by
  intro c t h
  have hd := natChars_digits c (h ▸ List.mem_cons_self _ _)
  rcases ha : c.isAlpha with _ | _
  · rfl
  · rw [isDigit_false_of_isAlpha ha] at hd
    cases hd

theorem tailStart_preChars {o : Option (PrePhase × Nat)} {s : List Char} (hs : TailStart s) :
    TailStart (preChars o ++ s) := by
  rcases o with _ | ⟨p, n⟩
  · exact hs
  · intro c t h
    simp only [preChars, List.cons_append] at h
    injection h with e1 _
    exact .inl e1.symm

theorem tailStart_postChars {o : Option Nat} {s : List Char} (hs : TailStart s) :
    TailStart (postChars o ++ s) := by
  rcases o with _ | n
  · exact hs
  · intro c t h
    simp only [postChars, List.cons_append] at h
    injection h with e1 _
    exact .inr (.inl e1.symm)

theorem tailStart_devChars {o : Option Nat} {s : List Char} (hs : TailStart s) :
    TailStart (devChars o ++ s) := by
  rcases o with _ | n
  · exact hs
  · intro c t h
    simp only [devChars, List.cons_append] at h
    injection h with e1 _
    exact .inl e1.symm

theorem num_append_not_alpha_start (n : Nat) (s : List Char) :
    ∀ c t, natChars n ++ s = c :: t → c.isAlpha = false := by
  intro c t h
  obtain ⟨c0, rest, hn⟩ := List.exists_cons_of_ne_nil (natChars_ne_nil n)
  rw [hn, List.cons_append] at h
  injection h with e1 _
  subst e1
  exact natChars_not_alpha_start n c0 rest hn

theorem toks_preChars (o : Option (PrePhase × Nat)) {s : List Char} (hs : TailStart s) :
    toks (preChars o ++ s) = preToks o ++ toks s := by
  rcases o with _ | ⟨p, n⟩
  · simp [preChars, preToks]
  · show toks ('~' :: (phaseChars p ++ natChars n ++ s)) = _
    rw [List.append_assoc, toks_tilde_cons,
      toks_word_run (phaseChars_ne_nil p) (phaseChars_alpha p)
        (num_append_not_alpha_start n s),
      toks_num_run n (tailStart_not_digit hs)]
    rfl

theorem toks_postChars (q : Option Nat) {s : List Char} (hs : TailStart s) :
    toks (postChars q ++ s) = postToks q ++ toks s := by
  rcases q with _ | n
  · simp [postChars, postToks]
  · show toks ('.' :: ('p' :: 'o' :: 's' :: 't' :: (natChars n ++ s))) = _
    rw [show ('p' :: 'o' :: 's' :: 't' :: (natChars n ++ s)) =
        ['p', 'o', 's', 't'] ++ (natChars n ++ s) from rfl,
      toks_sep_cons (by decide),
      toks_word_run (by simp) (by decide) (num_append_not_alpha_start n s),
      toks_num_run n (tailStart_not_digit hs)]
    rfl

theorem toks_devChars (d : Option Nat) {s : List Char} (hs : TailStart s) :
    toks (devChars d ++ s) = devToks d ++ toks s := by
  rcases d with _ | n
  · simp [devChars, devToks]
  · show toks ('~' :: '~' :: ('d' :: 'e' :: 'v' :: (natChars n ++ s))) = _
    rw [show ('d' :: 'e' :: 'v' :: (natChars n ++ s)) =
        ['d', 'e', 'v'] ++ (natChars n ++ s) from rfl,
      toks_tilde_cons, toks_tilde_cons,
      toks_word_run (by simp) (by decide) (num_append_not_alpha_start n s),
      toks_num_run n (tailStart_not_digit hs)]
    rfl

/-- Release segments tokenize to their numbers. -/
theorem toks_releaseChars (r : List Nat) (hr : r ≠ []) {s : List Char} (hs : TailStart s) :
    toks (releaseChars r ++ s) = r.map Token.num ++ toks s := by
  induction r with
  | nil => exact absurd rfl hr
  | cons n t ih =>
    rcases t with _ | ⟨m, t'⟩
    · show toks (natChars n ++ s) = _
      rw [toks_num_run n (tailStart_not_digit hs)]
      rfl
    · show toks ((natChars n ++ '.' :: releaseChars (m :: t')) ++ s) = _
      rw [List.append_assoc, List.cons_append,
        toks_num_run n (fun c t h => by injection h with e1 _; rw [← e1]; rfl),
        toks_sep_cons (by decide), ih (by simp)]
      rfl

/-- The token list of an encoded version body without local segments. -/
theorem toks_encodeBody (v : PyVersion) (hrel : v.release ≠ []) (hloc : v.locals = []) :
    toks (encodeBody v) =
      v.release.map Token.num ++ (preToks v.pre ++ (postToks v.post ++ devToks v.dev)) := by
  have hbody : encodeBody v =
      releaseChars v.release ++ (preChars v.pre ++ (postChars v.post ++ (devChars v.dev ++ []))) := by
    rw [encodeBody, hloc]
    simp only [preChars, postChars, devChars, List.append_assoc]
  rw [hbody,
    toks_releaseChars v.release hrel
      (tailStart_preChars (tailStart_postChars (tailStart_devChars tailStart_nil))),
    toks_preChars _ (tailStart_postChars (tailStart_devChars tailStart_nil)),
    toks_postChars _ (tailStart_devChars tailStart_nil),
    toks_devChars _ tailStart_nil, toks_nil, List.append_nil]

/-! ### Token-level comparison of encoded versions -/

theorem then_eq_right (o : Ordering) : o.then .eq = o := by
  cases o <;> rfl

theorem charsCmp_refl (w : List Char) : charsCmp w w = .eq := by
  induction w with
  | nil => rfl
  | cons c t ih =>
    show (compare c.toNat c.toNat).then _ = _
    rw [Nat.compare_eq_eq.mpr rfl, ih]
    rfl

theorem relZeros_not_gt (t : List Nat) : relZeros t ≠ .gt := by
  induction t with
  | nil => simp [relZeros]
  | cons b s ih =>
    show (compare 0 b).then (relZeros s) ≠ .gt
    rcases Nat.eq_zero_or_pos b with hb | hb
    · subst hb
      rw [Nat.compare_eq_eq.mpr rfl]
      exact ih
    · rw [Nat.compare_eq_lt.mpr hb]
      simp [Ordering.then]

theorem relCmp_nil_not_gt (t : List Nat) : relCmp [] t ≠ .gt := relZeros_not_gt t

theorem relCmp_swap (r1 r2 : List Nat) : relCmp r2 r1 = (relCmp r1 r2).swap := by
  induction r1 generalizing r2 with
  | nil =>
    induction r2 with
    | nil => rfl
    | cons b t ih =>
      show (compare b 0).then (relCmp t []) = ((compare 0 b).then (relZeros t)).swap
      rw [Ordering.swap_then, ← Nat.compare_swap, ih]
      rfl
  | cons a s ih =>
    rcases r2 with _ | ⟨b, t⟩
    · show (compare 0 a).then (relZeros s) = ((compare a 0).then (relCmp s [])).swap
      rw [Ordering.swap_then, ← Nat.compare_swap, ← ih []]
      rfl
    · show (compare b a).then (relCmp t s) = ((compare a b).then (relCmp s t)).swap
      rw [Ordering.swap_then, ← Nat.compare_swap, ih t]

/-- A token list that does not begin with a number token. -/
def NotNumHead (l : List Token) : Prop := ∀ n rest, l ≠ Token.num n :: rest

theorem notNumHead_sufToks (o : Option (PrePhase × Nat)) (q d : Option Nat) :
    NotNumHead (preToks o ++ (postToks q ++ devToks d)) := by
  intro n rest h
  rcases o with _ | ⟨p, k⟩
  · rcases q with _ | k
    · rcases d with _ | k
      · cases h
      · cases h
    · cases h
  · cases h

/-- Release numbers dominate the comparison; on equal releases the suffixes
decide.  The hypothesis rules out the one shape RPM and PEP 440 disagree on:
two different release tuples that are equal after zero-padding. -/
theorem tokCmp_release (r1 r2 : List Nat) (s1 s2 : List Token)
    (hinj : relCmp r1 r2 = .eq → r1 = r2)
    (h1 : NotNumHead s1) (h2 : NotNumHead s2) :
    tokCmp (r1.map Token.num ++ s1) (r2.map Token.num ++ s2) =
      (relCmp r1 r2).then (tokCmp s1 s2) := by
  induction r1 generalizing r2 with
  | nil =>
    rcases r2 with _ | ⟨b, t⟩
    · simp only [List.map_nil, List.nil_append]
      rw [relCmp]
      rfl
    · have hne : relCmp [] (b :: t) ≠ .eq := fun h => by cases hinj h
      have hlt : relCmp [] (b :: t) = .lt := by
        rcases hv : relCmp [] (b :: t) with _ | _ | _
        · rfl
        · exact absurd hv hne
        · exact absurd hv (relCmp_nil_not_gt (b :: t))
      rw [hlt]
      show tokCmp s1 (Token.num b :: (t.map Token.num ++ s2)) = .lt
      rcases s1 with _ | ⟨x, xs⟩
      · rfl
      · rcases x with _ | _ | k | w
        · rfl
        · rfl
        · exact absurd rfl (h1 k xs)
        · rfl
  | cons a s ih =>
    rcases r2 with _ | ⟨b, t⟩
    · have hne : relCmp (a :: s) [] ≠ .eq := fun h => by cases hinj h
      have hgt : relCmp (a :: s) [] = .gt := by
        rcases hv : relCmp (a :: s) [] with _ | _ | _
        · have h2 : relCmp [] (a :: s) = .gt := by
            rw [relCmp_swap (a :: s) [], hv]
            rfl
          exact absurd h2 (relCmp_nil_not_gt (a :: s))
        · exact absurd hv hne
        · rfl
      rw [hgt]
      show tokCmp (Token.num a :: (s.map Token.num ++ s1)) s2 = .gt
      rcases s2 with _ | ⟨x, xs⟩
      · rfl
      · rcases x with _ | _ | k | w
        · rfl
        · rfl
        · exact absurd rfl (h2 k xs)
        · rfl
    · rw [relCmp]
      show (compare a b).then (tokCmp (s.map Token.num ++ s1) (t.map Token.num ++ s2)) = _
      rcases hc : compare a b with _ | _ | _
      · rfl
      · have hab : a = b := Nat.compare_eq_eq.mp hc
        subst hab
        have hinj' : relCmp s t = .eq → s = t := by
          intro he
          have := hinj (by
            rw [relCmp, Nat.compare_eq_eq.mpr rfl, he]
            rfl)
          injection this
        rw [ih t hinj']
        rfl
      · rfl

theorem then_assoc (a b c : Ordering) : (a.then b).then c = a.then (b.then c) := by
  cases a <;> cases b <;> rfl

theorem tokCmp_devToks (d1 d2 : Option Nat) :
    tokCmp (devToks d1) (devToks d2) = devCmp d1 d2 := by
  rcases d1 with _ | n <;> rcases d2 with _ | m
  · rfl
  · rfl
  · rfl
  · show (charsCmp ['d', 'e', 'v'] ['d', 'e', 'v']).then ((compare n m).then (tokCmp [] [])) =
      compare n m
    rw [charsCmp_refl]
    show (compare n m).then .eq = _
    exact then_eq_right _


/-- Post and dev markers compare as the PEP 440 post/dev key. -/
theorem tokCmp_tail (q1 q2 d1 d2 : Option Nat) :
    tokCmp (postToks q1 ++ devToks d1) (postToks q2 ++ devToks d2) =
      (postCmp q1 q2).then (devCmp d1 d2) := by
  rcases q1 with _ | n <;> rcases q2 with _ | m
  · exact tokCmp_devToks d1 d2
  · -- no post against post: older, whatever the dev parts are
    rcases d1 with _ | k
    · rfl
    · rfl
  · rcases d2 with _ | k
    · rfl
    · rfl
  · show (charsCmp ['p', 'o', 's', 't'] ['p', 'o', 's', 't']).then
      ((compare n m).then (tokCmp (devToks d1) (devToks d2))) = _
    rw [charsCmp_refl, tokCmp_devToks]
    rfl

theorem phaseChars_cmp (p q : PrePhase) :
    charsCmp (phaseChars p) (phaseChars q) = compare (phaseRank p) (phaseRank q) := by
  cases p <;> cases q <;> rfl

/-- The whole suffix after the release segments compares as the PEP 440
pre/post/dev key: the `~~devN` segment sorts below every `~phaseN` segment,
which sorts below the post/dev tail of a version without pre-release. -/
theorem tokCmp_suffix (v w : PyVersion) :
    tokCmp (preToks v.pre ++ (postToks v.post ++ devToks v.dev))
        (preToks w.pre ++ (postToks w.post ++ devToks w.dev)) =
      (preKeyCmp (preKey v) (preKey w)).then
        ((postCmp v.post w.post).then (devCmp v.dev w.dev)) := by
  rcases hv : v.pre with _ | ⟨p, n⟩ <;> rcases hw : w.pre with _ | ⟨q, m⟩
  · -- no pre-release on either side
    rw [show preToks none = [] from rfl, List.nil_append, List.nil_append]
    rcases hvq : v.post with _ | n <;> rcases hvd : v.dev with _ | k <;>
      rcases hwq : w.post with _ | m <;> rcases hwd : w.dev with _ | l <;>
      simp only [preKey, hv, hw, hvq, hvd, hwq, hwd] <;>
      (rw [tokCmp_tail]; rfl)
  · -- v final or dev-only, w pre-release
    rw [show preToks none = [] from rfl, List.nil_append]
    rcases hvq : v.post with _ | n <;> rcases hvd : v.dev with _ | k <;>
      simp only [preKey, hv, hw, hvq, hvd] <;> rfl
  · -- v pre-release, w final or dev-only
    rw [show preToks none = [] from rfl, List.nil_append]
    rcases hwq : w.post with _ | m <;> rcases hwd : w.dev with _ | l <;>
      simp only [preKey, hv, hw, hwq, hwd] <;> rfl
  · -- both pre-releases
    simp only [preKey, hv, hw]
    show (charsCmp (phaseChars p) (phaseChars q)).then
      ((compare n m).then (tokCmp (postToks v.post ++ devToks v.dev)
        (postToks w.post ++ devToks w.dev))) = _
    rw [phaseChars_cmp, tokCmp_tail]
    show _ = ((compare (phaseRank p) (phaseRank q)).then (compare n m)).then _
    rw [then_assoc]

/-! ### Character classes of encoded versions -/

theorem mem_releaseChars {r : List Nat} {c : Char} (h : c ∈ releaseChars r) :
    c.isDigit = true ∨ c = '.' := by
  induction r with
  | nil => cases h
  | cons n t ih =>
    rcases t with _ | ⟨m, t'⟩
    · exact .inl (natChars_digits c h)
    · rw [show releaseChars (n :: m :: t') = natChars n ++ '.' :: releaseChars (m :: t')
        from rfl] at h
      rcases List.mem_append.1 h with h1 | h1
      · exact .inl (natChars_digits c h1)
      · rcases List.mem_cons.1 h1 with h2 | h2
        · exact .inr h2
        · exact ih h2

theorem mem_preChars {o : Option (PrePhase × Nat)} {c : Char} (h : c ∈ preChars o) :
    c.isDigit = true ∨ c.isAlpha = true ∨ c = '~' := by
  rcases o with _ | ⟨p, n⟩
  · cases h
  · rcases List.mem_cons.1 h with h1 | h1
    · exact .inr (.inr h1)
    · rcases List.mem_append.1 h1 with h2 | h2
      · exact .inr (.inl (phaseChars_alpha p c h2))
      · exact .inl (natChars_digits c h2)

theorem mem_postChars {o : Option Nat} {c : Char} (h : c ∈ postChars o) :
    c.isDigit = true ∨ c.isAlpha = true ∨ c = '.' := by
  rcases o with _ | n
  · cases h
  · rcases List.mem_cons.1 h with h1 | h1
    · exact .inr (.inr h1)
    · rcases List.mem_cons.1 h1 with h2 | h2
      · exact .inr (.inl (h2 ▸ rfl))
      · rcases List.mem_cons.1 h2 with h3 | h3
        · exact .inr (.inl (h3 ▸ rfl))
        · rcases List.mem_cons.1 h3 with h4 | h4
          · exact .inr (.inl (h4 ▸ rfl))
          · rcases List.mem_cons.1 h4 with h5 | h5
            · exact .inr (.inl (h5 ▸ rfl))
            · exact .inl (natChars_digits c h5)

theorem mem_devChars {o : Option Nat} {c : Char} (h : c ∈ devChars o) :
    c.isDigit = true ∨ c.isAlpha = true ∨ c = '~' := by
  rcases o with _ | n
  · cases h
  · rcases List.mem_cons.1 h with h1 | h1
    · exact .inr (.inr h1)
    · rcases List.mem_cons.1 h1 with h2 | h2
      · exact .inr (.inr h2)
      · rcases List.mem_cons.1 h2 with h3 | h3
        · exact .inr (.inl (h3 ▸ rfl))
        · rcases List.mem_cons.1 h3 with h4 | h4
          · exact .inr (.inl (h4 ▸ rfl))
          · rcases List.mem_cons.1 h4 with h5 | h5
            · exact .inr (.inl (h5 ▸ rfl))
            · exact .inl (natChars_digits c h5)

/-- Without local segments, the encoded body consists of digits, letters,
dots and tildes only. -/
theorem mem_encodeBody {v : PyVersion} (hloc : v.locals = []) {c : Char}
    (h : c ∈ encodeBody v) :
    c.isDigit = true ∨ c.isAlpha = true ∨ c = '.' ∨ c = '~' := by
  rw [encodeBody, hloc] at h
  simp only [List.flatMap_nil, List.append_nil] at h
  rcases List.mem_append.1 h with h1 | h1
  · rcases List.mem_append.1 h1 with h2 | h2
    · rcases List.mem_append.1 h2 with h3 | h3
      · rcases mem_releaseChars h3 with h4 | h4
        · exact .inl h4
        · exact .inr (.inr (.inl h4))
      · rcases mem_preChars (o := v.pre) h3 with h4 | h4 | h4
        · exact .inl h4
        · exact .inr (.inl h4)
        · exact .inr (.inr (.inr h4))
    · rcases mem_postChars (o := v.post) h2 with h4 | h4 | h4
      · exact .inl h4
      · exact .inr (.inl h4)
      · exact .inr (.inr (.inl h4))
  · rcases mem_devChars (o := v.dev) h1 with h4 | h4 | h4
    · exact .inl h4
    · exact .inr (.inl h4)
    · exact .inr (.inr (.inr h4))

theorem encodeBody_no_caret {v : PyVersion} (hloc : v.locals = []) :
    '^' ∉ encodeBody v := by
  intro h
  rcases mem_encodeBody hloc h with h1 | h1 | h1 | h1
  · cases h1
  · cases h1
  · cases h1
  · cases h1

theorem encodeBody_no_colon {v : PyVersion} (hloc : v.locals = []) :
    ∀ c ∈ encodeBody v, c ≠ ':' := by
  intro c h he
  subst he
  rcases mem_encodeBody hloc h with h1 | h1 | h1 | h1
  · cases h1
  · cases h1
  · cases h1
  · cases h1

theorem encodeBody_no_dash {v : PyVersion} (hloc : v.locals = []) :
    ∀ c ∈ encodeBody v, c ≠ '-' := by
  intro c h he
  subst he
  rcases mem_encodeBody hloc h with h1 | h1 | h1 | h1
  · cases h1
  · cases h1
  · cases h1
  · cases h1

theorem goodRuns_encodeBody {v : PyVersion} (hrel : v.release ≠ []) (hloc : v.locals = []) :
    GoodRuns (encodeBody v) := by
  intro w hw
  rw [toks_encodeBody v hrel hloc] at hw
  rcases List.mem_append.1 hw with h1 | h1
  · obtain ⟨n, _, hn⟩ := List.mem_map.1 h1
    cases hn
  · rcases List.mem_append.1 h1 with h2 | h2
    · rcases hp : v.pre with _ | ⟨p, n⟩
      · rw [hp] at h2
        cases h2
      · rw [hp] at h2
        rcases List.mem_cons.1 h2 with h3 | h3
        · cases h3
        · rcases List.mem_cons.1 h3 with h4 | h4
          · cases h4
            cases p <;> simp [goodWords, phaseChars]
          · rcases List.mem_cons.1 h4 with h5 | h5
            · cases h5
            · cases h5
    · rcases List.mem_append.1 h2 with h3 | h3
      · rcases hq : v.post with _ | n
        · rw [hq] at h3
          cases h3
        · rw [hq] at h3
          rcases List.mem_cons.1 h3 with h4 | h4
          · cases h4
            simp [goodWords]
          · rcases List.mem_cons.1 h4 with h5 | h5
            · cases h5
            · cases h5
      · rcases hd : v.dev with _ | n
        · rw [hd] at h3
          cases h3
        · rw [hd] at h3
          rcases List.mem_cons.1 h3 with h4 | h4
          · cases h4
          · rcases List.mem_cons.1 h4 with h5 | h5
            · cases h5
            · rcases List.mem_cons.1 h5 with h6 | h6
              · cases h6
                simp [goodWords]
              · rcases List.mem_cons.1 h6 with h7 | h7
                · cases h7
                · cases h7

/-! ### Splitting an encoded string into RPM label fields -/

theorem takeWhile_eq_self_of_all {α : Type} {p : α → Bool} {l : List α}
    (h : ∀ c ∈ l, p c = true) : l.takeWhile p = l := by
  induction l with
  | nil => rfl
  | cons a t ih =>
    simp only [List.takeWhile_cons, h a (List.mem_cons_self a t), if_true]
    rw [ih (fun c hc => h c (List.mem_cons_of_mem a hc))]

theorem dropWhile_eq_nil_of_all {α : Type} {p : α → Bool} {l : List α}
    (h : ∀ c ∈ l, p c = true) : l.dropWhile p = [] := by
  induction l with
  | nil => rfl
  | cons a t ih =>
    simp only [List.dropWhile_cons, h a (List.mem_cons_self a t), if_true]
    exact ih (fun c hc => h c (List.mem_cons_of_mem a hc))

theorem splitEpoch_no_colon {s : List Char} (h : ∀ c ∈ s, c ≠ ':') :
    splitEpoch s = ([], s) := by
  rw [splitEpoch]
  have ht : s.reverse.takeWhile (fun c => c != ':') = s.reverse :=
    takeWhile_eq_self_of_all (fun c hc => by simp [h c (List.mem_reverse.1 hc)])
  simp [ht]

theorem splitEpoch_with_epoch {e body : List Char} (he : e ≠ [])
    (hd : ∀ c ∈ e, c ≠ ':') (hb : ∀ c ∈ body, c ≠ ':') :
    splitEpoch (e ++ ':' :: body) = (e, body) := by
  rw [splitEpoch]
  have hrev : (e ++ ':' :: body).reverse = body.reverse ++ ':' :: e.reverse := by
    rw [List.reverse_append, List.reverse_cons, List.append_assoc]
    rfl
  have ht : (e ++ ':' :: body).reverse.takeWhile (fun c => c != ':') = body.reverse := by
    rw [hrev, List.takeWhile_append_of_pos
      (fun c hc => by simp [hb c (List.mem_reverse.1 hc)]),
      List.takeWhile_cons_of_neg (by simp), List.append_nil]
  rw [ht, List.reverse_reverse]
  have hlen : body.length ≠ (e ++ ':' :: body).length := by
    simp only [List.length_append, List.length_cons]
    have : 1 ≤ e.length := List.length_pos.2 he
    omega
  rw [if_neg (by simpa using hlen)]
  have : (e ++ ':' :: body).length - body.length - 1 = e.length := by
    simp only [List.length_append, List.length_cons]
    omega
  rw [this, List.take_left' rfl]

theorem splitDash_no_dash {s : List Char} (h : ∀ c ∈ s, c ≠ '-') :
    splitDash s = (s, []) := by
  rw [splitDash]
  rw [takeWhile_eq_self_of_all (fun c hc => by simp [h c hc]),
    dropWhile_eq_nil_of_all (fun c hc => by simp [h c hc])]
  rfl

theorem rvc_nil_nil : rvc [] [] = .eq := by
  rw [rvc.eq_def]
  rfl

/-- The epoch field of an encoded version reads back as its epoch. -/
theorem splitEpoch_encode (v : PyVersion) (hloc : v.locals = []) :
    splitEpoch (python_version_to_rpm_version v) =
      ((if v.epoch = 0 then [] else natChars v.epoch), encodeBody v) := by
  rw [python_version_to_rpm_version]
  rcases he : v.epoch with _ | k
  · simp only [if_pos rfl, List.nil_append]
    exact splitEpoch_no_colon (encodeBody_no_colon hloc)
  · rw [if_neg (by omega), List.append_assoc, List.singleton_append]
    rw [if_neg (by omega)]
    exact splitEpoch_with_epoch (natChars_ne_nil _)
      (fun c hc hne => by
        have := natChars_digits c hc
        subst hne
        cases this)
      (encodeBody_no_colon hloc)

/-- The epoch field value. -/
theorem digitsVal_epoch (e : Nat) :
    digitsVal (if e = 0 then [] else natChars e) = e := by
  rcases he : e with _ | k
  · rfl
  · rw [if_neg (by omega), digitsVal_natChars]

/-- The core ordering theorem: on versions without local segments whose
release tuples are not PEP 440-equal-but-distinct, RPM label comparison of
the encoded strings computes exactly the PEP 440 comparison. -/
theorem rpmLabelCmp_encode_eq_pep440 (v w : PyVersion)
    (hvr : v.release ≠ []) (hvl : v.locals = [])
    (hwr : w.release ≠ []) (hwl : w.locals = [])
    (hinj : relCmp v.release w.release = .eq → v.release = w.release) :
    rpmLabelCmp (python_version_to_rpm_version v) (python_version_to_rpm_version w) =
      pep440Cmp v w := by
  rw [rpmLabelCmp, splitEpoch_encode v hvl, splitEpoch_encode w hwl]
  simp only
  rw [splitDash_no_dash (encodeBody_no_dash hvl), splitDash_no_dash (encodeBody_no_dash hwl)]
  simp only
  rw [digitsVal_epoch, digitsVal_epoch, rvc_nil_nil, then_eq_right]
  rw [rvc_eq_tokCmp (encodeBody_no_caret hvl) (encodeBody_no_caret hwl)
    (goodRuns_encodeBody hvr hvl) (goodRuns_encodeBody hwr hwl)]
  rw [toks_encodeBody v hvr hvl, toks_encodeBody w hwr hwl]
  rw [tokCmp_release v.release w.release _ _ hinj
    (notNumHead_sufToks v.pre v.post v.dev) (notNumHead_sufToks w.pre w.post w.dev)]
  rw [tokCmp_suffix v w]
  rw [pep440Cmp, hvl, hwl]
  rw [show localCmp [] [] = .eq from rfl, then_eq_right]

/-! ### Claim C1 -/

/-- C1, counterexample: RPM label comparison of encoded versions does not
reproduce PEP 440 order on all versions.  First pair: `1.0+abc10` orders
before `1.0+abc2` under PEP 440 (local alphanumeric segments compare as
strings) but after it under RPM comparison (librpm compares the embedded
digit runs numerically, `10 > 2`).  Second pair: `1.0` and `1.0.0` are equal
under PEP 440 (zero-padding) but RPM orders `1.0` strictly below `1.0.0`. -/
theorem encode_order_claim_false :
    (pep440Cmp ⟨0, [1, 0], none, none, none, [.alpha ['a', 'b', 'c', '1', '0']]⟩
        ⟨0, [1, 0], none, none, none, [.alpha ['a', 'b', 'c', '2']]⟩ = .lt ∧
      rpmLabelCmp
        (python_version_to_rpm_version ⟨0, [1, 0], none, none, none, [.alpha ['a', 'b', 'c', '1', '0']]⟩)
        (python_version_to_rpm_version ⟨0, [1, 0], none, none, none, [.alpha ['a', 'b', 'c', '2']]⟩) = .gt) ∧
    (pep440Cmp ⟨0, [1, 0], none, none, none, []⟩ ⟨0, [1, 0, 0], none, none, none, []⟩ = .eq ∧
      rpmLabelCmp (python_version_to_rpm_version ⟨0, [1, 0], none, none, none, []⟩)
        (python_version_to_rpm_version ⟨0, [1, 0, 0], none, none, none, []⟩) = .lt) := by
  refine ⟨⟨by decide, ?_⟩, by decide, ?_⟩
  · have hA : rvc ['1', '.', '0', '^', 'a', 'b', 'c', '1', '0']
        ['1', '.', '0', '^', 'a', 'b', 'c', '2'] = .gt := by
      rw [rvc.eq_def]
      show rvc ['.', '0', '^', 'a', 'b', 'c', '1', '0'] ['.', '0', '^', 'a', 'b', 'c', '2'] = .gt
      rw [rvc.eq_def]
      show rvc ['^', 'a', 'b', 'c', '1', '0'] ['^', 'a', 'b', 'c', '2'] = .gt
      rw [rvc.eq_def]
      show rvc ['a', 'b', 'c', '1', '0'] ['a', 'b', 'c', '2'] = .gt
      rw [rvc.eq_def]
      show rvc ['1', '0'] ['2'] = .gt
      rw [rvc.eq_def]
      rfl
    show (rvc ['1', '.', '0', '^', 'a', 'b', 'c', '1', '0']
      ['1', '.', '0', '^', 'a', 'b', 'c', '2']).then (rvc [] []) = .gt
    rw [hA, rvc_nil_nil]
    rfl
  · have hB : rvc ['1', '.', '0'] ['1', '.', '0', '.', '0'] = .lt := by
      rw [rvc.eq_def]
      show rvc ['.', '0'] ['.', '0', '.', '0'] = .lt
      rw [rvc.eq_def]
      show rvc ([] : List Char) ['.', '0'] = .lt
      rw [rvc.eq_def]
      rfl
    show (rvc ['1', '.', '0'] ['1', '.', '0', '.', '0']).then (rvc [] []) = .lt
    rw [hB, rvc_nil_nil]
    rfl

/-- C1, amended: for versions carrying no local-version segment, and whose
release tuples are not distinct-but-zero-padding-equal, RPM label comparison
of the encoded strings returns less-than exactly when the first version
orders before the second under PEP 440, and equal exactly when they are
equal — covering release increments, pre-release before final, dev-release
before pre-release, post-release after final, and epoch dominance. -/
theorem encode_order_matches_pep440 (v w : PyVersion)
    (hvr : v.release ≠ []) (hvl : v.locals = [])
    (hwr : w.release ≠ []) (hwl : w.locals = [])
    (hinj : relCmp v.release w.release = .eq → v.release = w.release) :
    (rpmLabelCmp (python_version_to_rpm_version v) (python_version_to_rpm_version w) = .lt ↔
      pep440Cmp v w = .lt) ∧
    (rpmLabelCmp (python_version_to_rpm_version v) (python_version_to_rpm_version w) = .eq ↔
      pep440Cmp v w = .eq) := by
  rw [rpmLabelCmp_encode_eq_pep440 v w hvr hvl hwr hwl hinj]
  exact ⟨Iff.rfl, Iff.rfl⟩

/-- Witness for the amended C1 at `1!1.0a1` versus `1!1.0`: every hypothesis
discharges on this concrete pair. -/
theorem encode_order_matches_pep440_witness :
    (rpmLabelCmp (python_version_to_rpm_version ⟨1, [1, 0], some (.a, 1), none, none, []⟩)
        (python_version_to_rpm_version ⟨1, [1, 0], none, none, none, []⟩) = .lt ↔
      pep440Cmp ⟨1, [1, 0], some (.a, 1), none, none, []⟩ ⟨1, [1, 0], none, none, none, []⟩ = .lt) ∧
    (rpmLabelCmp (python_version_to_rpm_version ⟨1, [1, 0], some (.a, 1), none, none, []⟩)
        (python_version_to_rpm_version ⟨1, [1, 0], none, none, none, []⟩) = .eq ↔
      pep440Cmp ⟨1, [1, 0], some (.a, 1), none, none, []⟩ ⟨1, [1, 0], none, none, none, []⟩ = .eq) :=
  encode_order_matches_pep440 ⟨1, [1, 0], some (.a, 1), none, none, []⟩
    ⟨1, [1, 0], none, none, none, []⟩ (by decide) rfl (by decide) rfl (fun _ => rfl)

/-! ### PEP 508 markers: the spec's data model, modelled from the spec -/

/-- A marker expression: leaves compare a variable against a literal,
internal nodes are AND/OR (AND binds tighter in the grammar; the tree is
already built). -/
inductive MarkerExpr : Type
  | leaf (var : String) (op : String) (lit : String) : MarkerExpr
  | and : MarkerExpr → MarkerExpr → MarkerExpr
  | or : MarkerExpr → MarkerExpr → MarkerExpr
deriving DecidableEq, Repr

/-- A value bound in the known environment: a plain string, or the list of
active extras for the `extra` variable. -/
inductive EnvVal : Type
  | str : String → EnvVal
  | strList : List String → EnvVal
deriving DecidableEq, Repr

/-- A dynamic-variable capability descriptor: equality-only (a capability
template applied to the literal) or ordered (a fixed capability name). -/
inductive DynCap : Type
  | eqOnly : (String → String) → DynCap
  | ordered : String → DynCap

/-- The translation result: a statically known boolean or a residual RPM
rich-dependency condition string. -/
inductive TResult : Type
  | bool : Bool → TResult
  | cond : String → TResult
deriving DecidableEq, Repr

inductive MarkerErr : Type
  | unsupportedMarkerVariable : String → MarkerErr
  | invalidOperator : String → MarkerErr
deriving DecidableEq, Repr

/-- Modelled from the spec: evaluation of one marker leaf.  A known variable
compares the literal against its bound value (membership for the extras
list); a dynamic variable produces a ConditionString, `with`/`without` plus
the capability (template applied to the literal for equality-only
variables, fixed name with the comparison appended for ordered variables,
the bare-equality form collapsing to just the capability name); any other
variable fails with UnsupportedMarkerVariable. -/
def _single_marker_to_rpm_condition (env : String → Option EnvVal)
    (dyn : String → Option DynCap) (var op lit : String) : Except MarkerErr TResult :=
  match env var with
  | some (.str s) =>
    if op = "==" then .ok (.bool (s == lit))
    else if op = "!=" then .ok (.bool (!(s == lit)))
    else .error (.invalidOperator op)
  | some (.strList l) =>
    if op = "==" then .ok (.bool (l.contains lit))
    else if op = "!=" then .ok (.bool (!(l.contains lit)))
    else if op = "in" then .ok (.bool (l.contains lit))
    else if op = "not in" then .ok (.bool (!(l.contains lit)))
    else .error (.invalidOperator op)
  | none =>
    match dyn var with
    | some (.eqOnly tmpl) =>
      if op = "==" then .ok (.cond ("with " ++ tmpl lit))
      else if op = "!=" then .ok (.cond ("without " ++ tmpl lit))
      else .error (.invalidOperator op)
    | some (.ordered name) =>
      if op = "==" then .ok (.cond ("with " ++ name))
      else if op = "!=" then .ok (.cond ("without " ++ name))
      else .ok (.cond ("with " ++ name ++ " " ++ op ++ " " ++ lit))
    | none => .error (.unsupportedMarkerVariable var)

/-- Modelled from the spec: AND combination of two successful sub-results. -/
def andCombine : TResult → TResult → TResult
  | .bool false, _ => .bool false
  | _, .bool false => .bool false
  | .bool true, x => x
  | x, .bool true => x
  | .cond c1, .cond c2 => .cond (c1 ++ " " ++ c2)

/-- Modelled from the spec: OR combination of two successful sub-results. -/
def orCombine : TResult → TResult → TResult
  | .bool true, _ => .bool true
  | _, .bool true => .bool true
  | .bool false, x => x
  | x, .bool false => x
  | .cond c1, .cond c2 => .cond (c1 ++ " or " ++ c2)

/-- AND over fallible sub-results: a statically False operand decides the
conjunction before the other operand's translation is even consulted. -/
def andResult : Except MarkerErr TResult → Except MarkerErr TResult → Except MarkerErr TResult
  | .ok (.bool false), _ => .ok (.bool false)
  | _, .ok (.bool false) => .ok (.bool false)
  | .error e, _ => .error e
  | _, .error e => .error e
  | .ok l, .ok r => .ok (andCombine l r)

/-- OR over fallible sub-results: a statically True operand decides the
disjunction before the other operand's translation is even consulted. -/
def orResult : Except MarkerErr TResult → Except MarkerErr TResult → Except MarkerErr TResult
  | .ok (.bool true), _ => .ok (.bool true)
  | _, .ok (.bool true) => .ok (.bool true)
  | .error e, _ => .error e
  | _, .error e => .error e
  | .ok l, .ok r => .ok (orCombine l r)

/-- Modelled from the spec: recursive three-valued marker evaluation. -/
def evalMarker (env : String → Option EnvVal) (dyn : String → Option DynCap) :
    MarkerExpr → Except MarkerErr TResult
  | .leaf v o l => _single_marker_to_rpm_condition env dyn v o l
  | .and l r => andResult (evalMarker env dyn l) (evalMarker env dyn r)
  | .or l r => orResult (evalMarker env dyn l) (evalMarker env dyn r)

/-- Modelled from the spec: an absent marker evaluates to Boolean True. -/
def simplify_marker_to_rpm_condition (env : String → Option EnvVal)
    (dyn : String → Option DynCap) : Option MarkerExpr → Except MarkerErr TResult
  | none => .ok (.bool true)
  | some m => evalMarker env dyn m

/-! ### The dynamic-variable mapping and test fixtures -/

/-- The capability templates a converter carries, as the tests configure
them: a package-name template, an architecture template and the interpreter
ABI capability. -/
structure Templates : Type where
  python_package : String → String
  python_arch : String → String
  python_abi : String

/-- Modelled from the spec: the dynamic-variable mapping — `platform_machine`
is equality-only over the architecture capability template,
`platform_release` is ordered over the fixed kernel capability, and
`python_version` is ordered over the interpreter ABI capability. -/
def dynMapOf (t : Templates) : String → Option DynCap := fun v =>
  if v = "platform_machine" then some (.eqOnly t.python_arch)
  else if v = "platform_release" then some (.ordered "kernel")
  else if v = "python_version" then some (.ordered t.python_abi)
  else none

/-- The templates of the repository's conversion tests. -/
def testTemplates : Templates where
  python_package := fun name => "python-" ++ name
  python_arch := fun arch => "python(" ++ arch ++ ")"
  python_abi := "python(abi)"

/-- The environment of the repository's conversion tests. -/
def testEnvironment (extras : List String) : String → Option EnvVal := fun v =>
  if v = "os_name" then some (.str "posix")
  else if v = "sys_platform" then some (.str "linux")
  else if v = "platform_system" then some (.str "Linux")
  else if v = "implementation_name" then some (.str "cpython")
  else if v = "platform_python_implementation" then some (.str "CPython")
  else if v = "extra" then some (.strList extras)
  else none

/-! ### Version specifiers, modelled from the spec -/

/-- The canonical PEP 440 spelling of a parsed version, used verbatim inside
translated clauses. -/
def pyVersionChars (v : PyVersion) : List Char :=
  (if v.epoch = 0 then [] else natChars v.epoch ++ ['!']) ++
  releaseChars v.release ++
  (match v.pre with
    | none => []
    | some (p, n) => phaseChars p ++ natChars n) ++
  (match v.post with
    | none => []
    | some n => '.' :: 'p' :: 'o' :: 's' :: 't' :: natChars n) ++
  (match v.dev with
    | none => []
    | some n => '.' :: 'd' :: 'e' :: 'v' :: natChars n) ++
  (match v.locals with
    | [] => []
    | s :: t => '+' :: (localSegChars s ++ t.flatMap (fun s => '.' :: localSegChars s)))

def pyVersionStr (v : PyVersion) : String := ⟨pyVersionChars v⟩

/-- A version specifier: comparison operator, version, and the trailing
wildcard flag that is only valid on equality operators. -/
inductive SpecOp : Type
  | eq : SpecOp
  | ne : SpecOp
  | lt : SpecOp
  | le : SpecOp
  | gt : SpecOp
  | ge : SpecOp
  | compatible : SpecOp
deriving DecidableEq, Repr

structure Specifier : Type where
  op : SpecOp
  version : PyVersion
  wildcard : Bool := false
deriving DecidableEq, Repr

/-- Increment the last element of a list. -/
def bumpLast : List Nat → List Nat
  | [] => []
  | [n] => [n + 1]
  | n :: t => n :: bumpLast t

/-- The `~=` upper bound: the second-to-last release segment incremented by
one and all later segments (and pre/post/dev/local parts) dropped. -/
def compatUpper (v : PyVersion) : PyVersion :=
  { epoch := v.epoch, release := bumpLast v.release.dropLast }

/-- Modelled from the spec: the clauses one specifier contributes.  Equality
(wildcard or not) becomes `name = V`, inequality becomes
`name < V or name > V`, ordered operators pass through, and `~=V` becomes
the pair `name >= V`, `name < U`. -/
def specClauses (name : String) (s : Specifier) : List String :=
  match s.op with
  | .eq => [name ++ " = " ++ pyVersionStr s.version]
  | .ne => [name ++ " < " ++ pyVersionStr s.version ++ " or " ++ name ++ " > " ++
      pyVersionStr s.version]
  | .lt => [name ++ " < " ++ pyVersionStr s.version]
  | .le => [name ++ " <= " ++ pyVersionStr s.version]
  | .gt => [name ++ " > " ++ pyVersionStr s.version]
  | .ge => [name ++ " >= " ++ pyVersionStr s.version]
  | .compatible => [name ++ " >= " ++ pyVersionStr s.version,
      name ++ " < " ++ pyVersionStr (compatUpper s.version)]

/-- Modelled from the spec: `specifier_to_rpm_version` — all clauses of all
specifiers, in declaration order, joined with `", "`; an empty specifier
set leaves the bare capability name. -/
def specifier_to_rpm_version (name : String) (specs : List Specifier) : String :=
  match specs.flatMap (specClauses name) with
  | [] => name
  | clauses => String.intercalate ", " clauses

/-! ### The requirement converter, embedded from `pysrpm/rpm.py` -/

/-- A parsed requirement: name, specifier set, optional marker. -/
structure PyReq : Type where
  name : String
  specs : List Specifier
  marker : Option MarkerExpr

/-- The loop of `RPM.convert_python_req`, accumulating converted clauses in
declaration order; a failing marker translation propagates as the Python
exception would. -/
def convertLoop (env : String → Option EnvVal) (tmpl : Templates) :
    List PyReq → List String → Except MarkerErr (List String)
  | [], acc => .ok acc
  | req :: rest, acc =>
    match simplify_marker_to_rpm_condition env (dynMapOf tmpl) req.marker with
    | .error e => .error e
    | .ok (.bool false) => convertLoop env tmpl rest acc
    | .ok (.bool true) =>
      convertLoop env tmpl rest
        (acc ++ [specifier_to_rpm_version (tmpl.python_package req.name) req.specs])
    | .ok (.cond c) =>
      convertLoop env tmpl rest
        (acc ++ ["(" ++ specifier_to_rpm_version (tmpl.python_package req.name) req.specs ++
          " " ++ c ++ ")"])

/-- Embedded from `RPM.convert_python_req`: convert each requirement in
order, dropping those whose marker is statically false.  As in the source,
the `extras` parameter is accepted but never read by the body. -/
def convert_python_req (env : String → Option EnvVal) (tmpl : Templates)
    (reqs : List PyReq) (extras : List String) : Except MarkerErr (List String) :=
  convertLoop env tmpl reqs []

/-! ### Claim C2 -/

/-- The conversion of a single requirement: dropped when its marker is
statically false, the versioned capability text as-is when true, and the
parenthesized conditional form for a residual condition. -/
def convOne (env : String → Option EnvVal) (tmpl : Templates) (req : PyReq) : Option String :=
  match simplify_marker_to_rpm_condition env (dynMapOf tmpl) req.marker with
  | .error _ => none
  | .ok (.bool false) => none
  | .ok (.bool true) => some (specifier_to_rpm_version (tmpl.python_package req.name) req.specs)
  | .ok (.cond c) =>
    some ("(" ++ specifier_to_rpm_version (tmpl.python_package req.name) req.specs ++
      " " ++ c ++ ")")

theorem convertLoop_filterMap (env : String → Option EnvVal) (tmpl : Templates) :
    ∀ (reqs : List PyReq) (acc : List String),
    (∀ req ∈ reqs, ∃ r, simplify_marker_to_rpm_condition env (dynMapOf tmpl) req.marker = .ok r) →
    convertLoop env tmpl reqs acc = .ok (acc ++ reqs.filterMap (convOne env tmpl)) := by
  intro reqs
  induction reqs with
  | nil =>
    intro acc _
    simp [convertLoop]
  | cons req rest ih =>
    intro acc hok
    obtain ⟨r, hr⟩ := hok req (List.mem_cons_self _ _)
    have hrest := fun q hq => hok q (List.mem_cons_of_mem _ hq)
    rcases r with b | c
    · rcases b with _ | _
      · simp only [convertLoop, hr]
        rw [ih acc hrest]
        simp [List.filterMap_cons, convOne, hr]
      · simp only [convertLoop, hr]
        rw [ih _ hrest]
        simp [List.filterMap_cons, convOne, hr, List.append_assoc]
    · simp only [convertLoop, hr]
      rw [ih _ hrest]
      simp [List.filterMap_cons, convOne, hr, List.append_assoc]

/-- C2: the requirement converter processes requirements in declaration
order; a statically false marker drops its requirement, a true (or absent)
marker emits the versioned capability text as-is, a residual condition
emits the parenthesized conditional form, and the surviving requirements
appear in declaration order. -/
theorem convert_python_req_spec (env : String → Option EnvVal) (tmpl : Templates)
    (reqs : List PyReq) (extras : List String)
    (hok : ∀ req ∈ reqs, ∃ r, simplify_marker_to_rpm_condition env (dynMapOf tmpl) req.marker = .ok r) :
    convert_python_req env tmpl reqs extras = .ok (reqs.filterMap (convOne env tmpl)) := by
  rw [convert_python_req, convertLoop_filterMap env tmpl reqs [] hok]
  rfl

/-- Witness for C2 on the requirements of the repository's conversion test:
one dropped requirement, one unconditional one, one conditional one. -/
theorem convert_python_req_spec_witness :
    convert_python_req (testEnvironment []) testTemplates
      [⟨"dropped", [], some (.leaf "os_name" "==" "nt")⟩,
       ⟨"package", [⟨.ge, ⟨0, [1, 3], none, none, none, []⟩, false⟩], none⟩,
       ⟨"package", [], some (.leaf "python_version" "<" "3.4")⟩] [] =
      .ok ["python-package >= 1.3", "(python-package with python(abi) < 3.4)"] := by
  rw [convert_python_req_spec (testEnvironment []) testTemplates _ []
    (by
      intro req hreq
      simp only [List.mem_cons, List.not_mem_nil, or_false] at hreq
      rcases hreq with h | h | h <;> subst h
      · exact ⟨.bool false, rfl⟩
      · exact ⟨.bool true, rfl⟩
      · exact ⟨.cond "with python(abi) < 3.4", rfl⟩)]
  rfl

/-! ### Claim C4 -/

/-- C4: AND and OR nodes combine sub-results by the three-valued
short-circuit rules: a statically False operand makes an AND False even if
the other operand's translation fails, True is neutral for AND, residual
conditions join with a space; a True operand makes an OR True even if the
other operand's translation fails, False is neutral for OR, residual
conditions join with `" or "`. -/
theorem marker_and_or_rules (env : String → Option EnvVal) (dyn : String → Option DynCap)
    (l r : MarkerExpr) :
    (evalMarker env dyn l = .ok (.bool false) →
      evalMarker env dyn (.and l r) = .ok (.bool false)) ∧
    (evalMarker env dyn r = .ok (.bool false) →
      evalMarker env dyn (.and l r) = .ok (.bool false)) ∧
    (evalMarker env dyn l = .ok (.bool true) →
      evalMarker env dyn (.and l r) = evalMarker env dyn r) ∧
    (evalMarker env dyn r = .ok (.bool true) →
      evalMarker env dyn (.and l r) = evalMarker env dyn l) ∧
    (∀ c1 c2, evalMarker env dyn l = .ok (.cond c1) → evalMarker env dyn r = .ok (.cond c2) →
      evalMarker env dyn (.and l r) = .ok (.cond (c1 ++ " " ++ c2))) ∧
    (evalMarker env dyn l = .ok (.bool true) →
      evalMarker env dyn (.or l r) = .ok (.bool true)) ∧
    (evalMarker env dyn r = .ok (.bool true) →
      evalMarker env dyn (.or l r) = .ok (.bool true)) ∧
    (evalMarker env dyn l = .ok (.bool false) →
      evalMarker env dyn (.or l r) = evalMarker env dyn r) ∧
    (evalMarker env dyn r = .ok (.bool false) →
      evalMarker env dyn (.or l r) = evalMarker env dyn l) ∧
    (∀ c1 c2, evalMarker env dyn l = .ok (.cond c1) → evalMarker env dyn r = .ok (.cond c2) →
      evalMarker env dyn (.or l r) = .ok (.cond (c1 ++ " or " ++ c2))) := by
  have hand : evalMarker env dyn (.and l r) = andResult (evalMarker env dyn l) (evalMarker env dyn r) := rfl
  have hor : evalMarker env dyn (.or l r) = orResult (evalMarker env dyn l) (evalMarker env dyn r) := rfl
  have hfl : ∀ x, andResult (.ok (.bool false)) x = .ok (.bool false) := by
    intro x
    rcases x with e | v
    · rfl
    · rcases v with b | c
      · rcases b with _ | _ <;> rfl
      · rfl
  have htl : ∀ x, orResult (.ok (.bool true)) x = .ok (.bool true) := by
    intro x
    rcases x with e | v
    · rfl
    · rcases v with b | c
      · rcases b with _ | _ <;> rfl
      · rfl
  refine ⟨?_, ?_, ?_, ?_, ?_, ?_, ?_, ?_, ?_, ?_⟩
  · intro h
    rw [hand, h, hfl]
  · intro h
    rw [hand, h]
    rcases evalMarker env dyn l with e | lv
    · rfl
    · rcases lv with b | c
      · rcases b with _ | _ <;> rfl
      · rfl
  · intro h
    rw [hand, h]
    rcases evalMarker env dyn r with e | rv
    · rfl
    · rcases rv with b | c
      · rcases b with _ | _ <;> rfl
      · rfl
  · intro h
    rw [hand, h]
    rcases evalMarker env dyn l with e | lv
    · rfl
    · rcases lv with b | c
      · rcases b with _ | _ <;> rfl
      · rfl
  · intro c1 c2 h1 h2
    rw [hand, h1, h2]
    rfl
  · intro h
    rw [hor, h, htl]
  · intro h
    rw [hor, h]
    rcases evalMarker env dyn l with e | lv
    · rfl
    · rcases lv with b | c
      · rcases b with _ | _ <;> rfl
      · rfl
  · intro h
    rw [hor, h]
    rcases evalMarker env dyn r with e | rv
    · rfl
    · rcases rv with b | c
      · rcases b with _ | _ <;> rfl
      · rfl
  · intro h
    rw [hor, h]
    rcases evalMarker env dyn l with e | lv
    · rfl
    · rcases lv with b | c
      · rcases b with _ | _ <;> rfl
      · rfl
  · intro c1 c2 h1 h2
    rw [hor, h1, h2]
    rfl

/-- Witness for C4: a false conjunct silences an ill-formed right operand,
and residual conditions join as specified. -/
theorem marker_and_or_rules_witness :
    evalMarker (testEnvironment []) (dynMapOf testTemplates)
      (.and (.leaf "os_name" "==" "nt") (.leaf "no_such_variable" "==" "x")) = .ok (.bool false) ∧
    evalMarker (testEnvironment []) (dynMapOf testTemplates)
      (.and (.leaf "platform_machine" "==" "x86-64") (.leaf "platform_release" ">" "3.4")) =
      .ok (.cond "with python(x86-64) with kernel > 3.4") ∧
    evalMarker (testEnvironment []) (dynMapOf testTemplates)
      (.or (.leaf "platform_machine" "==" "x86-64") (.leaf "platform_release" ">" "3.4")) =
      .ok (.cond "with python(x86-64) or with kernel > 3.4") :=
  ⟨(marker_and_or_rules (testEnvironment []) (dynMapOf testTemplates)
      (.leaf "os_name" "==" "nt") (.leaf "no_such_variable" "==" "x")).1 rfl,
    (marker_and_or_rules (testEnvironment []) (dynMapOf testTemplates)
      (.leaf "platform_machine" "==" "x86-64") (.leaf "platform_release" ">" "3.4")).2.2.2.2.1
      "with python(x86-64)" "with kernel > 3.4" rfl rfl,
    (marker_and_or_rules (testEnvironment []) (dynMapOf testTemplates)
      (.leaf "platform_machine" "==" "x86-64") (.leaf "platform_release" ">" "3.4")).2.2.2.2.2.2.2.2.2
      "with python(x86-64)" "with kernel > 3.4" rfl rfl⟩

/-! ### Claim C3 -/

theorem bumpLast_append (r : List Nat) (a : Nat) : bumpLast (r ++ [a]) = r ++ [a + 1] := by
  induction r with
  | nil => rfl
  | cons n t ih =>
    rcases t with _ | ⟨m, t'⟩
    · rfl
    · show n :: bumpLast ((m :: t') ++ [a]) = _
      rw [ih]
      rfl

theorem compatUpper_eq (ep : Nat) (r : List Nat) (a b : Nat) (p : Option (PrePhase × Nat))
    (po d : Option Nat) (loc : List LocalSeg) :
    compatUpper ⟨ep, r ++ [a, b], p, po, d, loc⟩ = ⟨ep, r ++ [a + 1], none, none, none, []⟩ := by
  rw [compatUpper]
  have : (r ++ [a, b]).dropLast = r ++ [a] := by
    rw [show r ++ [a, b] = (r ++ [a]) ++ [b] by simp]
    exact List.dropLast_concat
  rw [this, bumpLast_append]

theorem specClauses_ne_nil (name : String) (s : Specifier) : specClauses name s ≠ [] := by
  rcases s with ⟨op, v, w⟩
  cases op <;> simp [specClauses]

/-- C3: the per-specifier translation table — `==V` and `==V.*` give
`name = V` with the wildcard truncated to the prefix version, `!=V` and
`!=V.*` give `name < V or name > V`, the ordered operators pass through,
and `~=V` over at least two release segments gives exactly `name >= V` and
`name < U` with the second-to-last segment incremented and later segments
dropped; clauses of all specifiers join in declaration order with `", "`,
and an empty specifier set contributes no clause, leaving the bare name. -/
theorem specifier_translation_table :
    (∀ (name : String) (v : PyVersion) (w : Bool),
      specClauses name ⟨.eq, v, w⟩ = [name ++ " = " ++ pyVersionStr v]) ∧
    (∀ (name : String) (v : PyVersion) (w : Bool),
      specClauses name ⟨.ne, v, w⟩ =
        [name ++ " < " ++ pyVersionStr v ++ " or " ++ name ++ " > " ++ pyVersionStr v]) ∧
    (∀ (name : String) (v : PyVersion),
      specClauses name ⟨.lt, v, false⟩ = [name ++ " < " ++ pyVersionStr v] ∧
      specClauses name ⟨.le, v, false⟩ = [name ++ " <= " ++ pyVersionStr v] ∧
      specClauses name ⟨.gt, v, false⟩ = [name ++ " > " ++ pyVersionStr v] ∧
      specClauses name ⟨.ge, v, false⟩ = [name ++ " >= " ++ pyVersionStr v]) ∧
    (∀ (name : String) (ep : Nat) (r : List Nat) (a b : Nat) (p : Option (PrePhase × Nat))
        (po d : Option Nat) (loc : List LocalSeg) (w : Bool),
      specClauses name ⟨.compatible, ⟨ep, r ++ [a, b], p, po, d, loc⟩, w⟩ =
        [name ++ " >= " ++ pyVersionStr ⟨ep, r ++ [a, b], p, po, d, loc⟩,
         name ++ " < " ++ pyVersionStr ⟨ep, r ++ [a + 1], none, none, none, []⟩]) ∧
    (∀ (name : String) (s : Specifier) (specs : List Specifier),
      specifier_to_rpm_version name (s :: specs) =
        String.intercalate ", " ((s :: specs).flatMap (specClauses name))) ∧
    (∀ name : String, ([] : List Specifier).flatMap (specClauses name) = [] ∧
      specifier_to_rpm_version name [] = name) ∧
    (specifier_to_rpm_version "package"
        [⟨.compatible, ⟨0, [1, 5, 3], some (.b, 7), none, none, []⟩, false⟩] =
      "package >= 1.5.3b7, package < 1.6") ∧
    (specifier_to_rpm_version "package" [⟨.eq, ⟨0, [1, 5], none, none, none, []⟩, true⟩] =
      "package = 1.5") ∧
    (specifier_to_rpm_version "package" [⟨.ne, ⟨0, [1, 5], none, none, none, []⟩, true⟩] =
      "package < 1.5 or package > 1.5") := by
  refine ⟨fun name v w => rfl, fun name v w => rfl,
    fun name v => ⟨rfl, rfl, rfl, rfl⟩, ?_, ?_, fun name => ⟨rfl, rfl⟩, ?_, rfl, rfl⟩
  · intro name ep r a b p po d loc w
    show [name ++ " >= " ++ _, name ++ " < " ++ pyVersionStr (compatUpper _)] = _
    rw [compatUpper_eq]
  · intro name s specs
    rw [specifier_to_rpm_version]
    have hne : (s :: specs).flatMap (specClauses name) ≠ [] := by
      rw [List.flatMap_cons]
      intro h
      exact specClauses_ne_nil name s (List.append_eq_nil.1 h).1
    rcases hm : (s :: specs).flatMap (specClauses name) with _ | ⟨c, cs⟩
    · exact absurd hm hne
    · rfl
  · show specifier_to_rpm_version "package"
        [⟨.compatible, ⟨0, [1, 5, 3], some (.b, 7), none, none, []⟩, false⟩] = _
    rfl

/-! ### Claim C5 -/

/-- C5: a marker leaf on a dynamic variable yields a ConditionString —
`with`/`without` plus the formatted capability template for equality-only
variables, `with`/`without` plus capability name, operator and literal for
ordered variables with the bare-equality form collapsed to the capability
name alone; concretely, `platform_machine == "x86-64"` yields
`with python(x86-64)` under the template `python({arch})`, and
`platform_release > "3.4"` yields `with kernel > 3.4`. -/
theorem marker_dynamic_leaf (env : String → Option EnvVal) (dyn : String → Option DynCap)
    (var lit : String) :
    (∀ tmpl, env var = none → dyn var = some (.eqOnly tmpl) →
      evalMarker env dyn (.leaf var "==" lit) = .ok (.cond ("with " ++ tmpl lit)) ∧
      evalMarker env dyn (.leaf var "!=" lit) = .ok (.cond ("without " ++ tmpl lit))) ∧
    (∀ name op, env var = none → dyn var = some (.ordered name) → op ≠ "==" → op ≠ "!=" →
      evalMarker env dyn (.leaf var op lit) =
        .ok (.cond ("with " ++ name ++ " " ++ op ++ " " ++ lit))) ∧
    (∀ name, env var = none → dyn var = some (.ordered name) →
      evalMarker env dyn (.leaf var "==" lit) = .ok (.cond ("with " ++ name)) ∧
      evalMarker env dyn (.leaf var "!=" lit) = .ok (.cond ("without " ++ name))) ∧
    (evalMarker (testEnvironment []) (dynMapOf testTemplates)
        (.leaf "platform_machine" "==" "x86-64") = .ok (.cond "with python(x86-64)")) ∧
    (evalMarker (testEnvironment []) (dynMapOf testTemplates)
        (.leaf "platform_release" ">" "3.4") = .ok (.cond "with kernel > 3.4")) := by
  refine ⟨?_, ?_, ?_, rfl, rfl⟩
  · intro tmpl he hd
    constructor <;>
      · show _single_marker_to_rpm_condition env dyn var _ lit = _
        rw [_single_marker_to_rpm_condition, he, hd]
        rfl
  · intro name op he hd h1 h2
    show _single_marker_to_rpm_condition env dyn var op lit = _
    rw [_single_marker_to_rpm_condition, he, hd]
    show (if op = "==" then _ else if op = "!=" then _ else _) = _
    rw [if_neg h1, if_neg h2]
  · intro name he hd
    constructor <;>
      · show _single_marker_to_rpm_condition env dyn var _ lit = _
        rw [_single_marker_to_rpm_condition, he, hd]
        rfl

/-- Witness for C5 on the test fixtures: the hypotheses discharge at
`platform_machine` (equality-only) and `platform_release` (ordered). -/
theorem marker_dynamic_leaf_witness :
    (evalMarker (testEnvironment []) (dynMapOf testTemplates)
        (.leaf "platform_machine" "==" "x86-64") =
      .ok (.cond ("with " ++ testTemplates.python_arch "x86-64"))) ∧
    (evalMarker (testEnvironment []) (dynMapOf testTemplates)
        (.leaf "platform_release" ">" "3.4") =
      .ok (.cond ("with " ++ "kernel" ++ " " ++ ">" ++ " " ++ "3.4"))) :=
  ⟨((marker_dynamic_leaf (testEnvironment []) (dynMapOf testTemplates)
      "platform_machine" "x86-64").1 testTemplates.python_arch rfl rfl).1,
    (marker_dynamic_leaf (testEnvironment []) (dynMapOf testTemplates)
      "platform_release" "3.4").2.1 "kernel" ">" rfl rfl (by decide) (by decide)⟩

/-! ### Claim C7 -/

/-- C7: a marker leaf whose variable is absent from both the known
environment and the dynamic-variable mapping always fails with
UnsupportedMarkerVariable — it never yields a Boolean or a ConditionString,
and the error is the evaluation's synchronous result. -/
theorem marker_unknown_variable (env : String → Option EnvVal) (dyn : String → Option DynCap)
    (var op lit : String) (he : env var = none) (hd : dyn var = none) :
    evalMarker env dyn (.leaf var op lit) = .error (.unsupportedMarkerVariable var) := by
  show _single_marker_to_rpm_condition env dyn var op lit = _
  rw [_single_marker_to_rpm_condition, he, hd]

/-- Witness for C7: `no_such_variable` is known to neither table. -/
theorem marker_unknown_variable_witness :
    evalMarker (testEnvironment []) (dynMapOf testTemplates)
      (.leaf "no_such_variable" "==" "x") =
      .error (.unsupportedMarkerVariable "no_such_variable") :=
  marker_unknown_variable (testEnvironment []) (dynMapOf testTemplates)
    "no_such_variable" "==" "x" rfl rfl

/-! ### Claim C8: evaluation is read-only and total -/

/-- The shared inputs of a conversion call: the environment mapping, the
templates (carrying the dynamic-variable mapping), and the active extras. -/
structure ConvState : Type where
  environments : String → Option EnvVal
  templates : Templates
  extras : List String

/-- Marker evaluation with the shared inputs threaded through every
sub-evaluation, as the Python call threads `self`. -/
def evalMarkerState (st : ConvState) : MarkerExpr → (Except MarkerErr TResult) × ConvState
  | .leaf v o l =>
    (_single_marker_to_rpm_condition st.environments (dynMapOf st.templates) v o l, st)
  | .and l r =>
    let lv := evalMarkerState st l
    let rv := evalMarkerState lv.2 r
    (andResult lv.1 rv.1, rv.2)
  | .or l r =>
    let lv := evalMarkerState st l
    let rv := evalMarkerState lv.2 r
    (orResult lv.1 rv.1, rv.2)

def simplifyState (st : ConvState) : Option MarkerExpr → (Except MarkerErr TResult) × ConvState
  | none => (.ok (.bool true), st)
  | some m => evalMarkerState st m

/-- The requirement-conversion loop with the shared inputs threaded. -/
def convertLoopState (st : ConvState) : List PyReq → List String →
    (Except MarkerErr (List String)) × ConvState
  | [], acc => (.ok acc, st)
  | req :: rest, acc =>
    let c := simplifyState st req.marker
    match c.1 with
    | .error e => (.error e, c.2)
    | .ok (.bool false) => convertLoopState c.2 rest acc
    | .ok (.bool true) =>
      convertLoopState c.2 rest
        (acc ++ [specifier_to_rpm_version (c.2.templates.python_package req.name) req.specs])
    | .ok (.cond s) =>
      convertLoopState c.2 rest
        (acc ++ ["(" ++ specifier_to_rpm_version (c.2.templates.python_package req.name) req.specs ++
          " " ++ s ++ ")"])

def convert_python_req_state (st : ConvState) (reqs : List PyReq) :
    (Except MarkerErr (List String)) × ConvState :=
  convertLoopState st reqs []

theorem evalMarkerState_frame (st : ConvState) :
    ∀ m : MarkerExpr,
      evalMarkerState st m = (evalMarker st.environments (dynMapOf st.templates) m, st) := by
  intro m
  induction m with
  | leaf v o l => rfl
  | and l r ihl ihr =>
    show (let lv := evalMarkerState st l
      let rv := evalMarkerState lv.2 r
      (andResult lv.1 rv.1, rv.2)) = _
    rw [ihl]
    simp only
    rw [ihr]
    rfl
  | or l r ihl ihr =>
    show (let lv := evalMarkerState st l
      let rv := evalMarkerState lv.2 r
      (orResult lv.1 rv.1, rv.2)) = _
    rw [ihl]
    simp only
    rw [ihr]
    rfl

theorem simplifyState_frame (st : ConvState) (m : Option MarkerExpr) :
    simplifyState st m =
      (simplify_marker_to_rpm_condition st.environments (dynMapOf st.templates) m, st) := by
  rcases m with _ | e
  · rfl
  · exact evalMarkerState_frame st e

/-- C8: marker evaluation and requirement conversion read the environment,
the extras and the dynamic-variable mapping but return them untouched: the
state-threaded call equals the pure call paired with the unchanged inputs
(these are total functions, so every call on a finite expression or
requirement list terminates with this value). -/
theorem conversion_is_read_only (st : ConvState) :
    (∀ m : MarkerExpr,
      evalMarkerState st m = (evalMarker st.environments (dynMapOf st.templates) m, st)) ∧
    (∀ (reqs : List PyReq),
      convert_python_req_state st reqs =
        (convert_python_req st.environments st.templates reqs st.extras, st)) := by
  refine ⟨evalMarkerState_frame st, ?_⟩
  intro reqs
  rw [convert_python_req_state, convert_python_req]
  generalize ([] : List String) = acc
  induction reqs generalizing acc with
  | nil => rfl
  | cons req rest ih =>
    rw [convertLoopState, convertLoop, simplifyState_frame]
    simp only
    rcases simplify_marker_to_rpm_condition st.environments (dynMapOf st.templates) req.marker
      with e | v
    · rfl
    · rcases v with b | c
      · rcases b with _ | _
        · exact ih acc
        · exact ih _
      · exact ih _

/-! ### Claim C6: no dash in encoded fields -/

/-- Well-formed local segments: alphanumeric parts hold only letters and
digits, as PEP 440 guarantees for parsed local versions. -/
def ValidLocals (v : PyVersion) : Prop :=
  ∀ s ∈ v.locals, ∀ w, s = LocalSeg.alpha w → ∀ c ∈ w, isAlnum c = true

theorem mem_localSegChars {s : LocalSeg} (hs : ∀ w, s = LocalSeg.alpha w → ∀ c ∈ w, isAlnum c = true) :
    ∀ c ∈ localSegChars s, isAlnum c = true := by
  rcases s with n | w
  · intro c hc
    simp [isAlnum, natChars_digits c hc]
  · exact hs w rfl

theorem mem_encodeBody_valid {v : PyVersion} (hval : ValidLocals v) {c : Char}
    (h : c ∈ encodeBody v) :
    isAlnum c = true ∨ c = '.' ∨ c = '~' ∨ c = '^' := by
  rw [encodeBody] at h
  rcases List.mem_append.1 h with h1 | h1
  · rcases List.mem_append.1 h1 with h2 | h2
    · rcases List.mem_append.1 h2 with h3 | h3
      · rcases List.mem_append.1 h3 with h4 | h4
        · rcases mem_releaseChars h4 with h5 | h5
          · exact .inl (by simp [isAlnum, h5])
          · exact .inr (.inl h5)
        · rcases mem_preChars (o := v.pre) h4 with h5 | h5 | h5
          · exact .inl (by simp [isAlnum, h5])
          · exact .inl (by simp [isAlnum, h5])
          · exact .inr (.inr (.inl h5))
      · rcases mem_postChars (o := v.post) h3 with h5 | h5 | h5
        · exact .inl (by simp [isAlnum, h5])
        · exact .inl (by simp [isAlnum, h5])
        · exact .inr (.inl h5)
    · rcases mem_devChars (o := v.dev) h2 with h5 | h5 | h5
      · exact .inl (by simp [isAlnum, h5])
      · exact .inl (by simp [isAlnum, h5])
      · exact .inr (.inr (.inl h5))
  · rcases hl : v.locals with _ | ⟨s0, t⟩
    · rw [hl] at h1
      cases h1
    · rw [hl] at h1
      rcases List.mem_cons.1 h1 with h2 | h2
      · exact .inr (.inr (.inr h2))
      · have hseg : ∀ s ∈ s0 :: t, ∀ w, s = LocalSeg.alpha w → ∀ c ∈ w, isAlnum c = true :=
          fun s hs => hval s (hl ▸ hs)
        rcases List.mem_append.1 h2 with h3 | h3
        · exact .inl (mem_localSegChars (hseg s0 (List.mem_cons_self _ _)) c h3)
        · clear h h1 h2 hl
          induction t with
          | nil => cases h3
          | cons s1 t' ih =>
            rw [List.flatMap_cons] at h3
            rcases List.mem_cons.1 h3 with h4 | h4
            · exact .inr (.inl h4)
            · rcases List.mem_append.1 h4 with h5 | h5
              · exact .inl (mem_localSegChars
                  (hseg s1 (List.mem_cons_of_mem _ (List.mem_cons_self _ _))) c h5)
              · exact ih (fun s hs => hseg s (by
                  rcases List.mem_cons.1 hs with h6 | h6
                  · exact h6 ▸ List.mem_cons_self _ _
                  · exact List.mem_cons_of_mem _ (List.mem_cons_of_mem _ h6))) h5

theorem isAlnum_ne_dash {c : Char} (h : isAlnum c = true) : c ≠ '-' := by
  intro he
  subst he
  cases h

/-- C6: the string the version encoder produces — and hence each of its
epoch, version and release fields — contains no `-` character, for any
version whose parsed local segments are alphanumeric (PEP 440 local
versions always are; spellings with `-` are normalized away by parsing). -/
theorem encode_no_dash (v : PyVersion) (hval : ValidLocals v) :
    '-' ∉ python_version_to_rpm_version v := by
  intro h
  rw [python_version_to_rpm_version] at h
  rcases List.mem_append.1 h with h1 | h1
  · rcases he : v.epoch with _ | k
    · rw [he] at h1
      simp at h1
    · rw [he, if_neg (by omega)] at h1
      rcases List.mem_append.1 h1 with h2 | h2
      · have := natChars_digits _ h2
        cases this
      · simp only [List.mem_singleton] at h2
        cases h2
  · rcases mem_encodeBody_valid hval h1 with h2 | h2 | h2 | h2
    · exact isAlnum_ne_dash h2 rfl
    · cases h2
    · cases h2
    · cases h2

/-- Witness for C6 at `1!1.0a1.post2.dev3+abc.5`. -/
theorem encode_no_dash_witness :
    '-' ∉ python_version_to_rpm_version
      ⟨1, [1, 0], some (.a, 1), some 2, some 3, [.alpha ['a', 'b', 'c'], .num 5]⟩ :=
  encode_no_dash _ (by
    intro s hs w hw c hc
    simp only [List.mem_cons, List.not_mem_nil, or_false] at hs
    rcases hs with h | h
    · subst h
      cases hw
      simp only [List.mem_cons, List.not_mem_nil, or_false] at hc
      rcases hc with h | h | h <;> subst h <;> decide
    · subst h
      cases hw)

/-! ### Claim C9: `load_user_config` on TOML files -/

/-- A parsed TOML value, as far as `load_user_config` inspects one: a
table, or any non-table value (string, number, array, …), whose payload is
irrelevant here. -/
inductive TomlVal : Type
  | table : List (String × TomlVal) → TomlVal
  | strVal : String → TomlVal

inductive PyErr : Type
  | nameError : String → PyErr
  | attributeError : String → PyErr
deriving DecidableEq, Repr

/-- `dict.get(key, \x7b\x7d)` on an actual dictionary: the bound value, or
an empty table when the key is absent. -/
def dictGet (entries : List (String × TomlVal)) (k : String) : TomlVal :=
  match entries.find? (fun e => e.1 = k) with
  | some e => e.2
  | none => .table []

/-- `v.get(key, \x7b\x7d)` on an arbitrary value: only a dict has a `get`
method, so on any non-table value the attribute lookup raises
`AttributeError` instead of returning. -/
def pyGet (v : TomlVal) (k : String) : Except PyErr TomlVal :=
  match v with
  | .table entries => .ok (dictGet entries k)
  | .strVal _ => .error (.attributeError "get")

/-- Python name resolution in a local scope: an unbound name raises
`NameError`. -/
def lookupName (scope : List String) (n : String) : Except PyErr Unit :=
  if n ∈ scope then .ok () else .error (.nameError n)

/-- One section of an INI-style configuration. -/
def IniSections : Type := List (String × List (String × String))

/-- The converter's `ConfigParser`, abstracted as the sequence of
configuration dictionaries read into it. -/
structure CPState : Type where
  loaded : List IniSections

/-- `ConfigParser.read_dict`. -/
def read_dict (st : CPState) (cfg : IniSections) : CPState := ⟨st.loaded ++ [cfg]⟩

/-- Embedded from `RPM.load_user_config` of `pysrpm/rpm.py`: on a `.toml`
path `tomli.load(f)` yields the root table (`tomlContents`), `.get('tool',
\x7b\x7d)` on it always succeeds, but the second `.get('pysrpm', \x7b\x7d)`
is an attribute lookup on whatever `tool` is bound to and raises
`AttributeError` on a non-table; past that, the dict comprehension
rebuilding the `pysrpm` table reads the name `data`, which is bound nowhere
in the function (only `self`, `path`, `f` and `config` are), so the branch
raises `NameError` before `read_dict` runs; on any other path the INI
sections are filtered by the `pysrpm` prefix and read into the parser. -/
def load_user_config (st : CPState) (pathSuffix : String)
    (tomlContents : List (String × TomlVal)) (iniSections : IniSections) :
    (Except PyErr Unit) × CPState :=
  if pathSuffix = ".toml" then
    match pyGet (dictGet tomlContents "tool") "pysrpm" with
    | .error e => (.error e, st)
    | .ok _ =>
      match lookupName ["self", "path", "f", "config"] "data" with
      | .error e => (.error e, st)
      | .ok _ => (.ok (), read_dict st [])
  else
    let pfx := if iniSections.any (fun s => s.1.startsWith "pysrpm.") then "pysrpm." else ""
    let config := (iniSections.filter (fun s => s.1.startsWith pfx || s.1 = "pysrpm")).map
      (fun s => (s.1.replace pfx "", s.2))
    (.ok (), read_dict st config)

/-- The top-level `tool` key of the parsed file is absent or bound to a
table, so that `.get('pysrpm', \x7b\x7d)` on it succeeds. -/
def toolIsTable (tomlContents : List (String × TomlVal)) : Bool :=
  match dictGet tomlContents "tool" with
  | .table _ => true
  | .strVal _ => false

/-- C9, counterexample: the `NameError` does not occur regardless of the
file's contents — a TOML file binding the top-level `tool` key to a
non-table value makes `.get('pysrpm', \x7b\x7d)` raise `AttributeError`
before the unbound name `data` is ever reached. -/
theorem load_user_config_toml_claim_false :
    (load_user_config ⟨[]⟩ ".toml" [("tool", TomlVal.strVal "x")] []).1 =
      .error (.attributeError "get") ∧
    (Except.error (PyErr.attributeError "get") : Except PyErr Unit) ≠
      .error (.nameError "data") := by
  refine ⟨rfl, fun h => ?_⟩
  injection h with h'
  cases h'

/-- C9, amended: for every configuration path ending in `.toml` whose
contents parse as TOML with the top-level `tool` key absent or bound to a
table, `load_user_config` raises `NameError` for the unbound name `data`,
whatever the rest of the file contains, and the `ConfigParser` state is
unchanged. -/
theorem load_user_config_toml_name_error (st : CPState)
    (tomlContents : List (String × TomlVal)) (iniSections : IniSections)
    (h : toolIsTable tomlContents = true) :
    (load_user_config st ".toml" tomlContents iniSections).1 = .error (.nameError "data") ∧
    (load_user_config st ".toml" tomlContents iniSections).2 = st := by
  obtain ⟨es, hd⟩ : ∃ es, dictGet tomlContents "tool" = .table es := by
    revert h
    unfold toolIsTable
    rcases dictGet tomlContents "tool" with es | s
    · exact fun _ => ⟨es, rfl⟩
    · exact fun h => absurd h (by simp)
  unfold load_user_config
  rw [if_pos rfl, hd]
  exact ⟨rfl, rfl⟩

/-- Witness for C9 at a file whose `tool` table carries a `pysrpm` entry:
the hypothesis holds by computation and the `NameError` is raised. -/
theorem load_user_config_toml_name_error_witness :
    toolIsTable [("tool", TomlVal.table [("pysrpm", TomlVal.strVal "x")])] = true ∧
    (load_user_config ⟨[]⟩ ".toml"
        [("tool", TomlVal.table [("pysrpm", TomlVal.strVal "x")])] []).1 =
      .error (.nameError "data") :=
  ⟨rfl, (load_user_config_toml_name_error ⟨[]⟩
    [("tool", TomlVal.table [("pysrpm", TomlVal.strVal "x")])] [] rfl).1⟩

/-! ### Claim C10: the optional-dependency line of `make_spec` -/

/-- Embedded from `RPM.make_spec` of `pysrpm/rpm.py`, lines 263–271: the
`Requires:` line from the required dependencies, and the optional line,
present only when the option tag is nonempty and some optional dependency
is not already required. -/
def make_spec_dep_lines (required optional : List String) (optKey : String) :
    Option String × Option String :=
  ( if required ≠ [] then some ("Requires: " ++ String.intercalate ", " required) else none,
    if optKey ≠ "" ∧ optional.filter (fun r => !required.contains r) ≠ [] then
      some (optKey ++ ": " ++
        String.intercalate ", " (optional.filter (fun r => !required.contains r)))
    else none )

/-- C10: the optional-dependency line lists exactly the optional
requirements not already among the required ones, in their order; it is
omitted when the optional requirements are a subset of the required ones or
the tag option is empty; and the `Requires:` line does not depend on the
optional list. -/
theorem make_spec_optional_line (required optional : List String) (optKey : String) :
    (optKey ≠ "" → optional.filter (fun r => !required.contains r) ≠ [] →
      (make_spec_dep_lines required optional optKey).2 =
        some (optKey ++ ": " ++
          String.intercalate ", " (optional.filter (fun r => !required.contains r)))) ∧
    ((∀ x ∈ optional, x ∈ required) →
      (make_spec_dep_lines required optional optKey).2 = none) ∧
    ((make_spec_dep_lines required optional "").2 = none) ∧
    (∀ optional2 : List String,
      (make_spec_dep_lines required optional optKey).1 =
        (make_spec_dep_lines required optional2 optKey).1) := by
  refine ⟨?_, ?_, ?_, fun _ => rfl⟩
  · intro hk hne
    rw [make_spec_dep_lines]
    simp only [if_pos (And.intro hk hne)]
  · intro hsub
    have hnil : optional.filter (fun r => !required.contains r) = [] := by
      rw [List.filter_eq_nil_iff]
      intro a ha
      simp [hsub a ha]
    rw [make_spec_dep_lines]
    simp only [hnil]
    simp
  · rw [make_spec_dep_lines]
    simp

/-- Witness for C10 at the required list `["a"]`, optional list
`["a", "b"]` and tag `Recommends`. -/
theorem make_spec_optional_line_witness :
    (make_spec_dep_lines ["a"] ["a", "b"] "Recommends").2 =
      some ("Recommends" ++ ": " ++ String.intercalate ", "
        ((["a", "b"] : List String).filter (fun r => !(["a"] : List String).contains r))) :=
  (make_spec_optional_line ["a"] ["a", "b"] "Recommends").1 (by decide) (by decide)

end Pysrpm
